import Mathlib

/-!
# Demand-paging fault handler (`main.c`)

A shallow embedding of the frame-management code of `main.c`: the intrusive
FIFO list (`list_push_back`, `list_pop`), `flush_page`, `get_next_free_frame`
and `page_fault_handler`, followed by theorems about them.

Conventions of the embedding.

* Every C `int` is an `Int`; the counters are not wrapped (a run never gets
  near `INT_MAX` faults).  Protection bits are a `Nat` bit pattern.
* The globals (`state`, `frame_info`, `head`, `tail`, `disk`) and the two
  collaborators the handler talks to (page table, disk) are the fields of one
  record, `Machine`, passed explicitly.
* A pointer into `frame_info` is `some i` for `&frame_info[i]` and `none`
  for `NULL`.
* Calls into the collaborators (`disk_read`, `disk_write`,
  `page_table_set_entry`) are appended to `Machine.log`, in call order.
* A function whose C body can dereference `NULL`, index `frame_info` outside
  `[0, nframes)`, or divide by zero returns `Outcome.crash` there; `die`
  is `Outcome.exit`.
-/

namespace VirtMem

/-! ## Constants -/

/-- `#define UNKNOWN -1`. -/
def UNKNOWN : Int := -1

/-- `#define TYPE_RAND 1`. -/
def TYPE_RAND : Int := 1

/-- `#define TYPE_FIFO 2`. -/
def TYPE_FIFO : Int := 2

/-- `#define TYPE_CUSTOM 3`. -/
def TYPE_CUSTOM : Int := 3

/-- The value of `PROT_NONE` in `<sys/mman.h>` (a system header, used through `page_table.h`). -/
def PROT_NONE : Nat := 0

/-- The value of `PROT_READ` in `<sys/mman.h>`. -/
def PROT_READ : Nat := 1

/-- The value of `PROT_WRITE` in `<sys/mman.h>`. -/
def PROT_WRITE : Nat := 2

/-- Modelled from the spec: the page size of `page_table.h` (not among the sources); the
spec only says that a frame index resolves to the buffer offset `frameIndex * pageSize`. -/
def PAGE_SIZE : Int := 4096

/-! ## Data -/

/-- The record `struct frame_info`.  The one-bit fields `is_free`, `dirty` and `cached` are
only ever tested against zero, so they are booleans (`true` = non-zero); `bits` is the bit
pattern of the four-bit field.  Note that the source sets `is_free` for an *occupied* frame. -/
structure frame_info where
  is_free : Bool
  dirty : Bool
  cached : Bool
  bits : Nat
  page_num : Int
  next : Option Int
  prev : Option Int
deriving DecidableEq, Repr

/-- The anonymous struct of the global `state`. -/
structure Counters where
  page_faults : Int
  free_pages : Int
  type : Int
  disk_writes : Int
  disk_reads : Int
  invalidatings : Int
deriving DecidableEq, Repr

/-- One call into a collaborator: `disk_read(disk, block, physmem + addr)`,
`disk_write(disk, block, physmem + addr)`, `page_table_set_entry(pt, page, frame, bits)`. -/
inductive Event where
  | disk_read (block : Int) (addr : Int)
  | disk_write (block : Int) (addr : Int)
  | set_entry (page : Int) (frame : Int) (bits : Nat)
deriving DecidableEq, Repr

/-- The whole program state: the globals of `main.c`, the page table `pt` (its frame count and
its entries `page ↦ (frame, bits)`), the stream of values `random()` yields with the number of
calls made so far, and the log of collaborator calls. -/
structure Machine where
  state : Counters
  frame_info : Int → frame_info
  head : Option Int
  tail : Option Int
  nframes : Int
  entries : Int → Int × Nat
  rand : Nat → Nat
  rand_calls : Nat
  log : List Event

/-- How a call ends: it returns, the process exits through `die` (status 254, with the
machine as it was then), or the behaviour is undefined (`NULL` dereference, index outside
`frame_info`, division by zero). -/
inductive Outcome (α : Type) where
  | ret (a : α)
  | exit (status : Int) (msg : String) (m : Machine)
  | crash

/-- The value a call returned, if it returned. -/
def Outcome.result {α : Type} : Outcome α → Option α
  | Outcome.ret a => some a
  | Outcome.exit _ _ _ => none
  | Outcome.crash => none

/-- `die(str)`: `fputs(str, stderr); exit(254)`. -/
def die {α : Type} (str : String) (m : Machine) : Outcome α :=
  Outcome.exit 254 str m

/-- Whether `frame` is an index of the array `frame_info` (which has `nframes` elements). -/
def Machine.valid (m : Machine) (frame : Int) : Prop :=
  0 ≤ frame ∧ frame < m.nframes

instance (m : Machine) (frame : Int) : Decidable (m.valid frame) := by
  unfold Machine.valid; infer_instance

/-- Modelled from the spec: `page_table_get_entry` of the translation layer (`page_table.c` is
not among the sources), `getEntry(page) -> (frame, permissionBits)`. -/
def page_table_get_entry (m : Machine) (page : Int) : Int × Nat :=
  m.entries page

/-- Modelled from the spec: `page_table_set_entry` of the translation layer,
`setEntry(page, frame, permissionBits)`; the call is logged. -/
def page_table_set_entry (m : Machine) (page : Int) (frame : Int) (bits : Nat) : Machine :=
  { m with entries := Function.update m.entries page (frame, bits),
           log := m.log ++ [Event.set_entry page frame bits] }

/-- `GET_PAGE_PHYS_ADDR(pt, frame)`, as an offset into the physical memory of the page table. -/
def GET_PAGE_PHYS_ADDR (frame : Int) : Int :=
  frame * PAGE_SIZE

/-! ## The FIFO list -/

/-- `list_push_back(frame)`. -/
def list_push_back (m : Machine) (frame : Int) : Outcome Machine :=
  if ¬ m.valid frame then Outcome.crash
  else
    let node := m.frame_info frame
    if node.cached then Outcome.ret m
    else
      match m.head with
      | none =>
        Outcome.ret { m with head := some frame, tail := some frame,
                             frame_info := Function.update m.frame_info frame
                               { node with cached := true } }
      | some _ =>
        match m.tail with
        | none => Outcome.crash
        | some t =>
          let fi1 := Function.update m.frame_info t { m.frame_info t with next := some frame }
          let fi2 := Function.update fi1 frame { fi1 frame with next := none }
          let fi3 := Function.update fi2 frame { fi2 frame with prev := some t }
          let fi4 := Function.update fi3 frame { fi3 frame with cached := true }
          Outcome.ret { m with tail := some frame, frame_info := fi4 }

/-- `list_pop()`.  `HEAD_INDEX` is the index of the node `head` points to.  The first test,
`head == tail`, also holds when both are `NULL`, and its branch dereferences `head`. -/
def list_pop (m : Machine) : Outcome (Machine × Int) :=
  if m.head = m.tail then
    match m.head with
    | none => Outcome.crash
    | some h =>
      Outcome.ret ({ m with frame_info := Function.update m.frame_info h
                              { m.frame_info h with cached := false },
                            head := none, tail := none }, h)
  else if m.head.isSome ∨ m.tail.isSome then
    match m.head with
    | none => Outcome.crash
    | some h =>
      let fi1 := Function.update m.frame_info h { m.frame_info h with cached := false }
      match (fi1 h).next with
      | none => Outcome.crash
      | some n =>
        Outcome.ret ({ m with frame_info := Function.update fi1 n { fi1 n with prev := none },
                              head := some n }, h)
  else Outcome.ret (m, UNKNOWN)

/-! ## Write-back and free-frame search -/

/-- `flush_page(pt, frame)`. -/
def flush_page (m : Machine) (frame : Int) : Outcome Machine :=
  if ¬ m.valid frame then Outcome.crash
  else
    let m1 : Machine :=
      if (m.frame_info frame).bits &&& PROT_WRITE ≠ 0 then
        { m with log := m.log ++ [Event.disk_write (m.frame_info frame).page_num
                                    (GET_PAGE_PHYS_ADDR frame)],
                 state := { m.state with disk_writes := m.state.disk_writes + 1 } }
      else m
    let m2 := page_table_set_entry m1 (m1.frame_info frame).page_num frame PROT_NONE
    Outcome.ret { m2 with
      frame_info := Function.update m2.frame_info frame { m2.frame_info frame with bits := PROT_NONE },
      state := { m2.state with invalidatings := m2.state.invalidatings + 1 } }

/-- The `for` loop of `get_next_free_frame`, from index `i`, with `fuel` iterations left:
the first `i' ≥ i` below `nframes` with `frame_info[i'].is_free == 0`. -/
def get_next_free_frame.loop (fi : Int → frame_info) (nframes : Int) : Nat → Int → Option Int
  | 0, _ => none
  | fuel + 1, i =>
    if i < nframes then
      if (fi i).is_free = false then some i
      else get_next_free_frame.loop fi nframes fuel (i + 1)
    else none

/-- `get_next_free_frame(nframes)`: the machine after the call and the value returned. -/
def get_next_free_frame (m : Machine) (nframes : Int) : Machine × Int :=
  if m.state.free_pages ≥ nframes then (m, UNKNOWN)
  else
    match get_next_free_frame.loop m.frame_info nframes nframes.toNat 0 with
    | some i => ({ m with state := { m.state with free_pages := m.state.free_pages + 1 } }, i)
    | none => (m, UNKNOWN)

/-! ## The fault handler -/

/-- Lines 136-156 of `page_fault_handler`: the `switch (state.type)` that picks a victim when
no frame is free, then `flush_page`.  The result is `none` for the early `return` after
`list_pop` gave `UNKNOWN`, and `some new_frame` otherwise. -/
def page_fault_handler.evict (m : Machine) : Outcome (Machine × Option Int) :=
  if m.state.type = TYPE_RAND then
    if m.nframes = 0 then Outcome.crash
    else
      let new_frame := Int.tmod (m.rand m.rand_calls : Int) m.nframes
      match flush_page { m with rand_calls := m.rand_calls + 1 } new_frame with
      | Outcome.ret m1 => Outcome.ret (m1, some new_frame)
      | Outcome.exit c s x => Outcome.exit c s x
      | Outcome.crash => Outcome.crash
  else if m.state.type = TYPE_FIFO then
    match list_pop m with
    | Outcome.ret (m1, new_frame) =>
      if new_frame = UNKNOWN then Outcome.ret (m1, none)
      else
        match flush_page m1 new_frame with
        | Outcome.ret m2 => Outcome.ret (m2, some new_frame)
        | Outcome.exit c s x => Outcome.exit c s x
        | Outcome.crash => Outcome.crash
    | Outcome.exit c s x => Outcome.exit c s x
    | Outcome.crash => Outcome.crash
  else if m.state.type = TYPE_CUSTOM then die "Not implemented" m
  else die "Unknown handler type" m

/-- Lines 168-177 of `page_fault_handler`: install `page` in `new_frame` with `bit`, record it
in `frame_info[new_frame]`, and under FIFO push the frame. -/
def page_fault_handler.install (m : Machine) (page : Int) (new_frame : Int) (bit : Nat) :
    Outcome Machine :=
  let m1 := page_table_set_entry m page new_frame bit
  if ¬ m1.valid new_frame then Outcome.crash
  else
    let m2 : Machine :=
      { m1 with frame_info := Function.update m1.frame_info new_frame
                  { m1.frame_info new_frame with page_num := page, bits := bit % 16,
                                                 is_free := true } }
    if m2.state.type = TYPE_FIFO then list_push_back m2 new_frame
    else Outcome.ret m2

/-- `page_fault_handler(pt, page)`. -/
def page_fault_handler (m0 : Machine) (page : Int) : Outcome Machine :=
  let m : Machine := { m0 with state := { m0.state with page_faults := m0.state.page_faults + 1 } }
  let frame := (page_table_get_entry m page).1
  let bit := (page_table_get_entry m page).2
  if bit = 0 then
    let bit := bit ||| PROT_READ
    let found := get_next_free_frame m m.nframes
    let obtained : Outcome (Machine × Option Int) :=
      if found.2 = UNKNOWN then page_fault_handler.evict found.1
      else Outcome.ret (found.1, some found.2)
    match obtained with
    | Outcome.ret (m1, none) => Outcome.ret m1
    | Outcome.ret (m1, some new_frame) =>
      let m2 : Machine :=
        { m1 with log := m1.log ++ [Event.disk_read page (GET_PAGE_PHYS_ADDR frame)],
                  state := { m1.state with disk_reads := m1.state.disk_reads + 1 } }
      page_fault_handler.install m2 page new_frame bit
    | Outcome.exit c s x => Outcome.exit c s x
    | Outcome.crash => Outcome.crash
  else if bit ^^^ PROT_WRITE ≠ 0 then
    page_fault_handler.install m page frame (bit ||| PROT_WRITE)
  else die "Wrong protection bits" m

/-! ## Runs -/

/-- The machine `main` hands to the workload: `state` zeroed except for `type`, `frame_info`
zeroed by `memset`, `head = tail = NULL`, every page-table entry with bits `PROT_NONE`.  The
frame column of the fresh page table is whatever `mapping` says. -/
def initial (type : Int) (nframes : Int) (mapping : Int → Int) (rand : Nat → Nat) : Machine :=
  { state := { page_faults := 0, free_pages := 0, type := type, disk_writes := 0,
               disk_reads := 0, invalidatings := 0 },
    frame_info := fun _ => { is_free := false, dirty := false, cached := false, bits := 0,
                             page_num := 0, next := none, prev := none },
    head := none, tail := none, nframes := nframes,
    entries := fun p => (mapping p, PROT_NONE),
    rand := rand, rand_calls := 0, log := [] }

/-- The handler invoked for each page of `pages` in turn; a fatal exit or a crash ends the run. -/
def run (m : Machine) : List Int → Outcome Machine
  | [] => Outcome.ret m
  | page :: rest =>
    match page_fault_handler m page with
    | Outcome.ret m1 => run m1 rest
    | Outcome.exit c s x => Outcome.exit c s x
    | Outcome.crash => Outcome.crash

/-! ## Auxiliary notions for the proofs -/

/-- The fields of a frame record that the list operations never write. -/
def frame_info.payload (fr : frame_info) : Bool × Bool × Nat × Int :=
  (fr.is_free, fr.dirty, fr.bits, fr.page_num)

/-- Two machines that differ at most in the list: `head`, `tail` and the `cached`, `next`,
`prev` fields of the frame records. -/
def SameButList (m m1 : Machine) : Prop :=
  m1.state = m.state ∧ m1.entries = m.entries ∧ m1.log = m.log ∧ m1.nframes = m.nframes ∧
  m1.rand = m.rand ∧ m1.rand_calls = m.rand_calls ∧
  ∀ g, (m1.frame_info g).payload = (m.frame_info g).payload

/-- The value a call returned, or `d` when it did not return. -/
def Outcome.getD {α : Type} (o : Outcome α) (d : α) : α :=
  match o with
  | Outcome.ret a => a
  | Outcome.exit _ _ _ => d
  | Outcome.crash => d

/-- One call on the list: `list_push_back(frame)` or `list_pop()`. -/
inductive ListOp where
  | push (frame : Int)
  | pop
deriving DecidableEq, Repr

/-- The calls of `ops` made in turn on `m`: the machine at the end and the values the
`list_pop` calls returned, in order. -/
def list_exec (m : Machine) : List ListOp → Outcome (Machine × List Int)
  | [] => Outcome.ret (m, [])
  | ListOp.push frame :: rest =>
    match list_push_back m frame with
    | Outcome.ret m1 => list_exec m1 rest
    | Outcome.exit c s x => Outcome.exit c s x
    | Outcome.crash => Outcome.crash
  | ListOp.pop :: rest =>
    match list_pop m with
    | Outcome.ret (m1, frame) =>
      match list_exec m1 rest with
      | Outcome.ret (m2, out) => Outcome.ret (m2, frame :: out)
      | Outcome.exit c s x => Outcome.exit c s x
      | Outcome.crash => Outcome.crash
    | Outcome.exit c s x => Outcome.exit c s x
    | Outcome.crash => Outcome.crash

/-- The queue of the spec, `enqueue(frame)`: "no-op if already queued; else appends to the
tail". -/
def Queue.enqueue (q : List Int) (frame : Int) : List Int :=
  if frame ∈ q then q else q ++ [frame]

/-- The queue of the spec, `selectAndDequeueVictim()`: "removes and returns the head of the
queue"; `none` on an empty queue. -/
def Queue.dequeue : List Int → Option (Int × List Int)
  | [] => none
  | frame :: rest => some (frame, rest)

/-- The calls of `ops` made in turn on the queue of the spec: the dequeued values in order and
the queue at the end, or `none` if some `pop` met an empty queue. -/
def Queue.exec (q : List Int) : List ListOp → Option (List Int × List Int)
  | [] => some ([], q)
  | ListOp.push frame :: rest => Queue.exec (Queue.enqueue q frame) rest
  | ListOp.pop :: rest =>
    match Queue.dequeue q with
    | none => none
    | some (frame, q1) =>
      match Queue.exec q1 rest with
      | none => none
      | some (out, q2) => some (frame :: out, q2)

/-- Node `a` has its `next` pointer at node `b`. -/
def NextLink (fi : Int → frame_info) (a b : Int) : Prop :=
  (fi a).next = some b

/-- The list of `m` is the sequence `q` of frame indices: `head` is its first node, `tail` its
last, each node's `next` is the node after it, no node occurs twice, the nodes are elements of
`frame_info`, and a frame's `cached` flag is set exactly when it is in `q`. -/
structure Represents (m : Machine) (q : List Int) : Prop where
  head_eq : m.head = q.head?
  tail_eq : m.tail = q.getLast?
  linked : q.Chain' (NextLink m.frame_info)
  nodup : q.Nodup
  cached_iff : ∀ f, (m.frame_info f).cached = true ↔ f ∈ q
  valid : ∀ f ∈ q, m.valid f

/-- What a first-touch fault on `page` that evicts frame `v` leaves: `m1` against the machine
`m` it started from.  The victim's page is written back when the frame's `bits` have
`PROT_WRITE`, its entry is revoked, then `page` is read and installed in `v`. -/
structure Evicted (m m1 : Machine) (page v : Int) : Prop where
  valid : m.valid v
  nframes : m1.nframes = m.nframes
  state : m1.state = { m.state with
    page_faults := m.state.page_faults + 1,
    disk_writes := m.state.disk_writes + (if (m.frame_info v).bits &&& PROT_WRITE ≠ 0 then 1 else 0),
    invalidatings := m.state.invalidatings + 1,
    disk_reads := m.state.disk_reads + 1 }
  entries : m1.entries = Function.update
    (Function.update m.entries (m.frame_info v).page_num (v, PROT_NONE)) page (v, PROT_READ)
  log : m1.log = m.log ++
    (if (m.frame_info v).bits &&& PROT_WRITE ≠ 0 then
      [Event.disk_write (m.frame_info v).page_num (GET_PAGE_PHYS_ADDR v)] else []) ++
    [Event.set_entry (m.frame_info v).page_num v PROT_NONE,
     Event.disk_read page (GET_PAGE_PHYS_ADDR (m.entries page).1),
     Event.set_entry page v PROT_READ]
  payload_at : (m1.frame_info v).payload = (true, (m.frame_info v).dirty, PROT_READ, page)
  payload_other : ∀ g, g ≠ v → (m1.frame_info g).payload = (m.frame_info g).payload

/-- What a first-touch fault on `page` that finds a free frame leaves: the frame taken is
number `m.state.free_pages`. -/
structure Loaded (m m1 : Machine) (page : Int) : Prop where
  nframes : m1.nframes = m.nframes
  state : m1.state = { m.state with page_faults := m.state.page_faults + 1,
                                    free_pages := m.state.free_pages + 1,
                                    disk_reads := m.state.disk_reads + 1 }
  entries : m1.entries = Function.update m.entries page (m.state.free_pages, PROT_READ)
  log : m1.log = m.log ++ [Event.disk_read page (GET_PAGE_PHYS_ADDR (m.entries page).1),
                           Event.set_entry page m.state.free_pages PROT_READ]
  payload_at : (m1.frame_info m.state.free_pages).payload =
    (true, (m.frame_info m.state.free_pages).dirty, PROT_READ, page)
  payload_other : ∀ g, g ≠ m.state.free_pages →
    (m1.frame_info g).payload = (m.frame_info g).payload

/-- What a fault on a mapped `page` (entry `(f, Read)` or `(f, ReadWrite)`) leaves. -/
structure Upgraded (m m1 : Machine) (page f : Int) : Prop where
  nframes : m1.nframes = m.nframes
  state : m1.state = { m.state with page_faults := m.state.page_faults + 1 }
  entries : m1.entries = Function.update m.entries page (f, PROT_READ ||| PROT_WRITE)
  log : m1.log = m.log ++ [Event.set_entry page f (PROT_READ ||| PROT_WRITE)]
  payload_at : (m1.frame_info f).payload =
    (true, (m.frame_info f).dirty, PROT_READ ||| PROT_WRITE, page)
  payload_other : ∀ g, g ≠ f → (m1.frame_info g).payload = (m.frame_info g).payload

/-- The invariant of the handler: the frames in use are exactly `0 .. free_pages - 1`; each of
them records a page whose entry points back at it with the frame's bits (Read or ReadWrite);
each mapped page sits in such a frame; no `dirty` flag is set; under FIFO the list holds
exactly the frames in use; and the counters are related as shown. -/
structure Inv (m : Machine) : Prop where
  free_lo : 0 ≤ m.state.free_pages
  free_hi : m.state.free_pages ≤ m.nframes
  resident_iff : ∀ f, (m.frame_info f).is_free = true ↔ (0 ≤ f ∧ f < m.state.free_pages)
  vacant_bits : ∀ f, ¬ (0 ≤ f ∧ f < m.state.free_pages) → (m.frame_info f).bits = PROT_NONE
  dirty_clear : ∀ f, (m.frame_info f).dirty = false
  frame_entry : ∀ f, 0 ≤ f → f < m.state.free_pages →
    m.entries (m.frame_info f).page_num = (f, (m.frame_info f).bits) ∧
    ((m.frame_info f).bits = PROT_READ ∨ (m.frame_info f).bits = PROT_READ ||| PROT_WRITE)
  entry_frame : ∀ p, (m.entries p).2 ≠ PROT_NONE →
    0 ≤ (m.entries p).1 ∧ (m.entries p).1 < m.state.free_pages ∧
    (m.frame_info (m.entries p).1).page_num = p
  queue : m.state.type = TYPE_FIFO →
    ∃ q, Represents m q ∧ ∀ f, f ∈ q ↔ (0 ≤ f ∧ f < m.state.free_pages)
  reads : m.state.disk_reads = m.state.free_pages + m.state.invalidatings
  writes_lo : 0 ≤ m.state.disk_writes
  writes_hi : m.state.disk_writes ≤ m.state.invalidatings
  faults : m.state.disk_reads ≤ m.state.page_faults

/-- The pages of a fault sequence in the order of their first fault, put after those of
`acc`. -/
def touched (acc : List Int) : List Int → List Int
  | [] => acc
  | p :: t => if p ∈ acc then touched acc t else touched (acc ++ [p]) t

/-- The frame indices `0, 1, .., n - 1`. -/
def frames_upto (n : Nat) : List Int :=
  (List.range n).map fun (i : Nat) => (i : Int)

/-- The machine while frames are still being handed out and nothing was evicted: the pages
`ps` were first touched in that order, the `i`-th of them sits in frame `i`, and under FIFO the
list is `0, 1, .., length ps - 1`. -/
structure Filling (m : Machine) (ps : List Int) : Prop where
  inv : Inv m
  count : m.state.free_pages = ps.length
  holds : ps = (List.range ps.length).map fun (i : Nat) => (m.frame_info (i : Int)).page_num
  no_eviction : m.state.invalidatings = 0
  queue : m.state.type = TYPE_FIFO → Represents m (frames_upto ps.length)
  events : ∀ e ∈ m.log, (∃ p a, e = Event.disk_read p a) ∨
    (∃ p f b, e = Event.set_entry p f b ∧ b ≠ PROT_NONE)

/-- The nodes met when walking the list from `cur` along `next`, stopping after the node
`tail` points at; `fuel` bounds the number of nodes visited. -/
def chain_from (fi : Int → frame_info) (tail : Option Int) : Nat → Option Int → List Int
  | 0, _ => []
  | _ + 1, none => []
  | fuel + 1, some c =>
    c :: (if some c = tail then [] else chain_from fi tail fuel (fi c).next)

/-- The chain of the list of `m`, from `head` to `tail` (at most `nframes` nodes). -/
def Machine.chain (m : Machine) : List Int :=
  chain_from m.frame_info m.tail m.nframes.toNat m.head

theorem list_push_back_sameButList (m : Machine) (frame : Int) (m1 : Machine)
    (h : list_push_back m frame = Outcome.ret m1) : SameButList m m1 := by
  by_cases hv : m.valid frame
  · by_cases hc : (m.frame_info frame).cached = true
    · simp [list_push_back, hv, hc] at h
      subst h
      exact ⟨rfl, rfl, rfl, rfl, rfl, rfl, fun _ => rfl⟩
    · cases hh : m.head with
      | none =>
        simp [list_push_back, hv, hc, hh] at h
        subst h
        refine ⟨rfl, rfl, rfl, rfl, rfl, rfl, fun g => ?_⟩
        by_cases e : g = frame
        · subst e; simp [frame_info.payload]
        · simp [Function.update_noteq e]
      | some h0 =>
        cases ht : m.tail with
        | none => simp [list_push_back, hv, hc, hh, ht] at h
        | some t =>
          simp [list_push_back, hv, hc, hh, ht] at h
          subst h
          refine ⟨rfl, rfl, rfl, rfl, rfl, rfl, fun g => ?_⟩
          by_cases e : g = frame
          · subst e
            by_cases e2 : g = t
            · subst e2; simp [frame_info.payload]
            · simp [frame_info.payload, Function.update_noteq e2]
          · by_cases e2 : g = t
            · subst e2; simp [frame_info.payload, Function.update_noteq e]
            · simp [frame_info.payload, Function.update_noteq e, Function.update_noteq e2]
  · simp [list_push_back, hv] at h

theorem list_push_back_returns (m : Machine) (frame : Int) (hf : m.valid frame)
    (hlist : m.head ≠ none → m.tail ≠ none) :
    ∃ m1, list_push_back m frame = Outcome.ret m1 := by
  by_cases hc : (m.frame_info frame).cached = true
  · simp [list_push_back, hf, hc]
  · cases hh : m.head with
    | none => simp [list_push_back, hf, hc, hh]
    | some h0 =>
      cases ht : m.tail with
      | none => exact absurd ht (hlist (by simp [hh]))
      | some t => simp [list_push_back, hf, hc, hh, ht]

theorem install_spec (m : Machine) (page new_frame : Int) (bit : Nat)
    (hf : m.valid new_frame) (hlist : m.head ≠ none → m.tail ≠ none) :
    ∃ m1, page_fault_handler.install m page new_frame bit = Outcome.ret m1 ∧
      m1.state = m.state ∧ m1.nframes = m.nframes ∧
      m1.entries = Function.update m.entries page (new_frame, bit) ∧
      m1.log = m.log ++ [Event.set_entry page new_frame bit] ∧
      (m1.frame_info new_frame).payload = (true, (m.frame_info new_frame).dirty, bit % 16, page) ∧
      ∀ g, g ≠ new_frame → (m1.frame_info g).payload = (m.frame_info g).payload := by
  have hv : 0 ≤ new_frame ∧ new_frame < m.nframes := hf
  by_cases hty : m.state.type = TYPE_FIFO
  · obtain ⟨m1, h1⟩ := list_push_back_returns
      { page_table_set_entry m page new_frame bit with
        frame_info := Function.update m.frame_info new_frame
          { m.frame_info new_frame with page_num := page, bits := bit % 16, is_free := true } }
      new_frame hf hlist
    have hs := list_push_back_sameButList _ _ _ h1
    refine ⟨m1, ?_, ?_⟩
    · simp [page_fault_handler.install, page_table_set_entry, Machine.valid, hv, hty]
      simpa [page_table_set_entry] using h1
    · obtain ⟨a, b, c, d, -, -, e⟩ := hs
      refine ⟨a, d, b, c, ?_, ?_⟩
      · rw [e]; simp [page_table_set_entry, frame_info.payload]
      · intro g hg
        rw [e]; simp [page_table_set_entry, Function.update_noteq hg]
  · refine ⟨{ page_table_set_entry m page new_frame bit with
        frame_info := Function.update m.frame_info new_frame
          { m.frame_info new_frame with page_num := page, bits := bit % 16, is_free := true } },
        ?_, rfl, rfl, rfl, rfl, ?_, ?_⟩
    · simp [page_fault_handler.install, page_table_set_entry, Machine.valid, hv, hty]
    · simp [page_table_set_entry, frame_info.payload]
    · intro g hg
      simp [page_table_set_entry, Function.update_noteq hg]

/-! ### The list represents a queue -/

theorem chain_update_last (fi fi1 : Int → frame_info) :
    ∀ q : List Int, q.Nodup → q.Chain' (NextLink fi) →
      (∀ a ∈ q, some a ≠ q.getLast? → (fi1 a).next = (fi a).next) →
      q.Chain' (NextLink fi1)
  | [], _, _, _ => List.chain'_nil
  | [_], _, _, _ => List.chain'_singleton _
  | a :: b :: rest, hnd, hch, hsame => by
    rw [List.chain'_cons] at hch ⊢
    have hnd2 : (b :: rest).Nodup := (List.nodup_cons.mp hnd).2
    have ha : a ∉ b :: rest := (List.nodup_cons.mp hnd).1
    refine ⟨?_, chain_update_last fi fi1 (b :: rest) hnd2 hch.2 ?_⟩
    · have : (fi1 a).next = (fi a).next := by
        apply hsame a (List.mem_cons_self _ _)
        intro hlast
        rw [List.getLast?_cons_cons] at hlast
        exact ha (List.mem_of_getLast?_eq_some hlast.symm)
      unfold NextLink; rw [this]; exact hch.1
    · intro c hc hlast
      apply hsame c (List.mem_cons_of_mem _ hc)
      rwa [List.getLast?_cons_cons]

theorem list_push_back_represents (m : Machine) (q : List Int) (frame : Int)
    (hq : Represents m q) (hf : m.valid frame) :
    ∃ m1, list_push_back m frame = Outcome.ret m1 ∧ Represents m1 (Queue.enqueue q frame) ∧
      (frame ∈ q → m1 = m) := by
  by_cases hc : (m.frame_info frame).cached = true
  · have hmem : frame ∈ q := (hq.cached_iff frame).mp hc
    refine ⟨m, by simp [list_push_back, hf, hc], ?_, fun _ => rfl⟩
    simpa [Queue.enqueue, hmem] using hq
  · have hmem : frame ∉ q := fun h => hc ((hq.cached_iff frame).mpr h)
    cases q with
    | nil =>
      have hh : m.head = none := by simpa using hq.head_eq
      refine ⟨_, by simp [list_push_back, hf, hc, hh]; rfl, ?_, fun h => absurd h hmem⟩
      simp only [Queue.enqueue, List.not_mem_nil, if_false, List.nil_append]
      refine ⟨rfl, rfl, List.chain'_singleton _, List.nodup_singleton _, ?_, ?_⟩
      · intro f
        by_cases e : f = frame
        · subst e; simp
        · simpa [Function.update_noteq e, e] using fun h => (hq.cached_iff f).mp h
      · intro f hfm
        rw [List.mem_singleton] at hfm
        subst hfm; exact hf
    | cons x xs =>
      have hh : m.head = some x := by simpa using hq.head_eq
      obtain ⟨t, ht⟩ : ∃ t, (x :: xs).getLast? = some t :=
        ⟨_, List.getLast?_eq_getLast _ (List.cons_ne_nil _ _)⟩
      have htl : m.tail = some t := by rw [hq.tail_eq, ht]
      have htmem : t ∈ x :: xs := List.mem_of_getLast?_eq_some ht
      have htf : t ≠ frame := fun e => hmem (e ▸ htmem)
      refine ⟨_, by simp [list_push_back, hf, hc, hh, htl]; rfl, ?_, fun h => absurd h hmem⟩
      simp only [Queue.enqueue, hmem, if_false]
      refine ⟨?_, ?_, ?_, ?_, ?_, ?_⟩
      · simp [hh]
      · exact (List.getLast?_concat (x :: xs)).symm
      · rw [List.chain'_append]
        refine ⟨?_, List.chain'_singleton _, ?_⟩
        · apply chain_update_last m.frame_info _ _ hq.nodup hq.linked
          intro a ha hlast
          have hat : a ≠ t := fun e => hlast (by rw [ht, e])
          have haf : a ≠ frame := fun e => hmem (e ▸ ha)
          simp [Function.update_noteq haf, Function.update_noteq hat]
        · intro a ha b hb
          rw [ht] at ha
          simp at ha hb
          subst ha hb
          simp [NextLink, Function.update_noteq htf]
      · exact List.Nodup.append hq.nodup (List.nodup_singleton _) (by simpa using hmem)
      · intro f
        by_cases e : f = frame
        · subst e; simp
        · by_cases e2 : f = t
          · subst e2
            simp [Function.update_noteq e, e]
            rw [hq.cached_iff]; simp
          · simp [Function.update_noteq e, Function.update_noteq e2, e]
            rw [hq.cached_iff]; simp
      · intro f hfm
        rw [List.mem_append, List.mem_singleton] at hfm
        rcases hfm with h | h
        · exact hq.valid f h
        · subst h; exact hf


theorem list_pop_represents (m : Machine) (x : Int) (xs : List Int)
    (hq : Represents m (x :: xs)) :
    ∃ m1, list_pop m = Outcome.ret (m1, x) ∧ Represents m1 xs ∧ SameButList m m1 := by
  have hh : m.head = some x := by simpa using hq.head_eq
  have hx : x ∉ xs := (List.nodup_cons.mp hq.nodup).1
  have hnd : xs.Nodup := (List.nodup_cons.mp hq.nodup).2
  cases xs with
  | nil =>
    have ht : m.tail = some x := by simpa using hq.tail_eq
    refine ⟨_, by simp [list_pop, hh, ht]; rfl, ?_, ?_⟩
    · refine ⟨rfl, rfl, List.chain'_nil, List.nodup_nil, ?_, by simp⟩
      intro f
      by_cases e : f = x
      · subst e; simp
      · have := hq.cached_iff f
        simpa [Function.update_noteq e, e] using this
    · refine ⟨rfl, rfl, rfl, rfl, rfl, rfl, fun g => ?_⟩
      by_cases e : g = x
      · subst e; simp [frame_info.payload]
      · simp [Function.update_noteq e]
  | cons y ys =>
    obtain ⟨t, ht⟩ : ∃ t, (y :: ys).getLast? = some t :=
      ⟨_, List.getLast?_eq_getLast _ (List.cons_ne_nil _ _)⟩
    have htl : m.tail = some t := by rw [hq.tail_eq, List.getLast?_cons_cons, ht]
    have htmem : t ∈ y :: ys := List.mem_of_getLast?_eq_some ht
    have hxt : x ≠ t := fun e => hx (e ▸ htmem)
    have hlink : (m.frame_info x).next = some y := (List.chain'_cons.mp hq.linked).1
    have hxy : x ≠ y := fun e => hx (e ▸ List.mem_cons_self _ _)
    have hne : m.head ≠ m.tail := by rw [hh, htl]; simpa using hxt
    refine ⟨_, by simp [list_pop, hh, htl, hxt, hlink]; rfl, ?_, ?_⟩
    · refine ⟨rfl, ?_, ?_, hnd, ?_, ?_⟩
      · simp [ht]
      · refine List.Chain'.imp ?_ (List.chain'_cons.mp hq.linked).2
        intro a b hab
        unfold NextLink at hab ⊢
        by_cases e1 : a = y
        · subst e1; simp [Function.update_noteq hxy.symm, hab]
        · by_cases e2 : a = x
          · subst e2
            simp only [Function.update_noteq e1, Function.update_same]
            exact hlink.symm.trans hab
          · simp [Function.update_noteq e1, Function.update_noteq e2, hab]
      · intro f
        have := hq.cached_iff f
        by_cases e1 : f = y
        · subst e1; simp [Function.update_noteq hxy.symm] at this ⊢; simpa using this
        · by_cases e2 : f = x
          · subst e2
            simp [Function.update_noteq e1]
            exact ⟨e1, fun h => hx (List.mem_cons_of_mem _ h)⟩
          · simpa [Function.update_noteq e1, Function.update_noteq e2, e1, e2] using this
      · intro f hfm
        exact hq.valid f (List.mem_cons_of_mem _ hfm)
    · refine ⟨rfl, rfl, rfl, rfl, rfl, rfl, fun g => ?_⟩
      by_cases e1 : g = y
      · subst e1; simp [frame_info.payload, Function.update_noteq hxy.symm]
      · by_cases e2 : g = x
        · subst e2; simp [frame_info.payload, Function.update_noteq e1]
        · simp [Function.update_noteq e1, Function.update_noteq e2]

theorem list_push_back_nframes (m : Machine) (frame : Int) (m1 : Machine)
    (h : list_push_back m frame = Outcome.ret m1) : m1.nframes = m.nframes :=
  (list_push_back_sameButList m frame m1 h).2.2.2.1

theorem list_exec_represents :
    ∀ (ops : List ListOp) (m : Machine) (q : List Int), Represents m q →
      (∀ f, ListOp.push f ∈ ops → m.valid f) →
      ∀ out q1, Queue.exec q ops = some (out, q1) →
        ∃ m1, list_exec m ops = Outcome.ret (m1, out) ∧ Represents m1 q1
  | [], m, q, hq, _, out, q1, hex => by
    simp only [Queue.exec, Option.some.injEq, Prod.mk.injEq] at hex
    obtain ⟨rfl, rfl⟩ := hex
    exact ⟨m, rfl, hq⟩
  | ListOp.push frame :: rest, m, q, hq, hv, out, q1, hex => by
    obtain ⟨m1, h1, hr1, -⟩ :=
      list_push_back_represents m q frame hq (hv frame (List.mem_cons_self _ _))
    have hn := list_push_back_nframes m frame m1 h1
    have hv1 : ∀ f, ListOp.push f ∈ rest → m1.valid f := by
      intro f hf
      have := hv f (List.mem_cons_of_mem _ hf)
      unfold Machine.valid at this ⊢
      rwa [hn]
    obtain ⟨m2, h2, hr2⟩ := list_exec_represents rest m1 _ hr1 hv1 out q1 hex
    exact ⟨m2, by simp only [list_exec, h1]; exact h2, hr2⟩
  | ListOp.pop :: rest, m, q, hq, hv, out, q1, hex => by
    cases q with
    | nil => simp [Queue.exec, Queue.dequeue] at hex
    | cons x xs =>
      obtain ⟨m1, h1, hr1, hs⟩ := list_pop_represents m x xs hq
      have hn : m1.nframes = m.nframes := hs.2.2.2.1
      have hv1 : ∀ f, ListOp.push f ∈ rest → m1.valid f := by
        intro f hf
        have := hv f (List.mem_cons_of_mem _ hf)
        unfold Machine.valid at this ⊢
        rwa [hn]
      cases hrest : Queue.exec xs rest with
      | none => simp [Queue.exec, Queue.dequeue, hrest] at hex
      | some r =>
        obtain ⟨out2, q2⟩ := r
        simp only [Queue.exec, Queue.dequeue, hrest, Option.some.injEq, Prod.mk.injEq] at hex
        obtain ⟨rfl, rfl⟩ := hex
        obtain ⟨m2, h2, hr2⟩ := list_exec_represents rest m1 xs hr1 hv1 out2 q2 hrest
        exact ⟨m2, by simp only [list_exec, h1, h2], hr2⟩

theorem initial_represents (type nframes : Int) (mapping : Int → Int) (rand : Nat → Nat) :
    Represents (initial type nframes mapping rand) [] :=
  ⟨rfl, rfl, List.chain'_nil, List.nodup_nil, by simp [initial], by simp⟩

/-- Claim C10: `list_push_back` and `list_pop` implement the duplicate-free FIFO queue of the
spec.  From a machine whose list is empty, any sequence of calls (with frames that are indices
of `frame_info`) in which the queue of the spec is never dequeued while empty returns; the
values `list_pop` returns are the values the queue of the spec dequeues, and the list at the end
is the queue `q` at the end.  In the state reached, a further `list_push_back` changes nothing
if its frame is in `q` and otherwise appends it at the tail, and a further `list_pop` on a
non-empty `q` removes and returns its head. -/
theorem list_refines_queue (m : Machine) (ops : List ListOp) (out q : List Int)
    (hempty : Represents m [])
    (hvalid : ∀ f, ListOp.push f ∈ ops → m.valid f)
    (hexec : Queue.exec [] ops = some (out, q)) :
    ∃ m1, list_exec m ops = Outcome.ret (m1, out) ∧ Represents m1 q ∧
      (∀ frame, m1.valid frame →
        ∃ m2, list_push_back m1 frame = Outcome.ret m2 ∧
          (frame ∈ q → m2 = m1) ∧ (frame ∉ q → Represents m2 (q ++ [frame]))) ∧
      (∀ x xs, q = x :: xs → ∃ m2, list_pop m1 = Outcome.ret (m2, x) ∧ Represents m2 xs) := by
  obtain ⟨m1, h1, hr⟩ := list_exec_represents ops m [] hempty hvalid out q hexec
  refine ⟨m1, h1, hr, ?_, ?_⟩
  · intro frame hf
    obtain ⟨m2, h2, hr2, hsame⟩ := list_push_back_represents m1 q frame hr hf
    refine ⟨m2, h2, hsame, fun hnot => ?_⟩
    simpa [Queue.enqueue, hnot] using hr2
  · intro x xs hq
    subst hq
    obtain ⟨m2, h2, hr2, -⟩ := list_pop_represents m1 x xs hr
    exact ⟨m2, h2, hr2⟩

theorem list_refines_queue_witness :
    ∃ m1, list_exec (initial TYPE_FIFO 3 (fun _ => 0) (fun _ => 0))
        [ListOp.push 0, ListOp.push 1, ListOp.push 0, ListOp.pop, ListOp.push 2, ListOp.pop,
          ListOp.push 1, ListOp.pop] = Outcome.ret (m1, [0, 1, 2]) ∧ Represents m1 [1] ∧
      (∀ frame, m1.valid frame →
        ∃ m2, list_push_back m1 frame = Outcome.ret m2 ∧
          (frame ∈ [1] → m2 = m1) ∧ (frame ∉ [1] → Represents m2 ([1] ++ [frame]))) ∧
      (∀ x xs, [1] = x :: xs → ∃ m2, list_pop m1 = Outcome.ret (m2, x) ∧ Represents m2 xs) :=
  list_refines_queue (initial TYPE_FIFO 3 (fun _ => 0) (fun _ => 0)) _ [0, 1, 2] [1]
    (initial_represents _ _ _ _)
    (by
      intro f hf
      have hf2 : f = 0 ∨ f = 1 ∨ f = 2 := by
        simp at hf
        omega
      rcases hf2 with rfl | rfl | rfl <;> decide)
    (by decide)

/-! ### `flush_page` and the write-upgrade path -/

/-- Claim C3: for a frame index of `frame_info` whose permission is one of None, Read,
ReadWrite, `flush_page` returns; it writes the frame's buffer to the disk block of the frame's
page and adds one to `disk_writes` exactly when the permission is ReadWrite, and otherwise makes
no disk call and leaves `disk_writes` alone; either way it sets the entry of the frame's page to
`PROT_NONE`, the frame's `bits` to `PROT_NONE`, and adds one to `invalidatings`. -/
theorem flush_page_contract (m : Machine) (frame : Int) (hframe : m.valid frame)
    (hbits : (m.frame_info frame).bits = PROT_NONE ∨ (m.frame_info frame).bits = PROT_READ ∨
      (m.frame_info frame).bits = PROT_READ ||| PROT_WRITE) :
    ∃ m1, flush_page m frame = Outcome.ret m1 ∧
      ((m.frame_info frame).bits = PROT_READ ||| PROT_WRITE →
        m1.log = m.log ++ [Event.disk_write (m.frame_info frame).page_num (frame * PAGE_SIZE),
                           Event.set_entry (m.frame_info frame).page_num frame PROT_NONE] ∧
        m1.state.disk_writes = m.state.disk_writes + 1) ∧
      ((m.frame_info frame).bits ≠ PROT_READ ||| PROT_WRITE →
        m1.log = m.log ++ [Event.set_entry (m.frame_info frame).page_num frame PROT_NONE] ∧
        m1.state.disk_writes = m.state.disk_writes) ∧
      m1.entries (m.frame_info frame).page_num = (frame, PROT_NONE) ∧
      (m1.frame_info frame).bits = PROT_NONE ∧
      m1.state.invalidatings = m.state.invalidatings + 1 := by
  rcases hbits with hb | hb | hb <;>
    simp [flush_page, hframe, hb, page_table_set_entry, GET_PAGE_PHYS_ADDR, PROT_NONE, PROT_READ,
      PROT_WRITE]

theorem flush_page_contract_witness :
    ∃ m1, flush_page
        ((run (initial TYPE_FIFO 2 (fun _ => 0) (fun _ => 0)) [7, 8, 8]).getD
          (initial TYPE_FIFO 2 (fun _ => 0) (fun _ => 0))) 1 = Outcome.ret m1 ∧
      (PROT_READ ||| PROT_WRITE = PROT_READ ||| PROT_WRITE →
        m1.log = [Event.disk_read 7 0, Event.set_entry 7 0 1, Event.disk_read 8 0,
                  Event.set_entry 8 1 1, Event.set_entry 8 1 3]
                 ++ [Event.disk_write 8 (1 * PAGE_SIZE), Event.set_entry 8 1 PROT_NONE] ∧
        m1.state.disk_writes = 0 + 1) ∧
      (PROT_READ ||| PROT_WRITE ≠ PROT_READ ||| PROT_WRITE →
        m1.log = [Event.disk_read 7 0, Event.set_entry 7 0 1, Event.disk_read 8 0,
                  Event.set_entry 8 1 1, Event.set_entry 8 1 3]
                 ++ [Event.set_entry 8 1 PROT_NONE] ∧
        m1.state.disk_writes = 0) ∧
      m1.entries 8 = (1, PROT_NONE) ∧
      (m1.frame_info 1).bits = PROT_NONE ∧
      m1.state.invalidatings = 0 + 1 :=
  flush_page_contract
    ((run (initial TYPE_FIFO 2 (fun _ => 0) (fun _ => 0)) [7, 8, 8]).getD
      (initial TYPE_FIFO 2 (fun _ => 0) (fun _ => 0))) 1 (by decide) (by decide)

/-- Claim C6: a fault on a page whose entry is `(f, Read)`, with `f` an index of `frame_info`
and a list whose `tail` is set whenever its `head` is, returns; the page's entry becomes
`(f, ReadWrite)`, `frame_info[f].bits` becomes ReadWrite, the frame still records the page, and
`disk_reads`, `disk_writes`, `invalidatings`, `free_pages` and every other entry are as
before. -/
theorem write_upgrade_contract (m : Machine) (page f : Int)
    (hentry : m.entries page = (f, PROT_READ)) (hf : m.valid f)
    (hlist : m.head ≠ none → m.tail ≠ none) :
    ∃ m1, page_fault_handler m page = Outcome.ret m1 ∧
      m1.entries page = (f, PROT_READ ||| PROT_WRITE) ∧
      (m1.frame_info f).bits = PROT_READ ||| PROT_WRITE ∧
      (m1.frame_info f).page_num = page ∧
      m1.state.disk_reads = m.state.disk_reads ∧
      m1.state.disk_writes = m.state.disk_writes ∧
      m1.state.invalidatings = m.state.invalidatings ∧
      m1.state.free_pages = m.state.free_pages ∧
      ∀ q, q ≠ page → m1.entries q = m.entries q := by
  obtain ⟨m1, h1, hst, -, hent, -, hpay, -⟩ := install_spec
    { m with state := { m.state with page_faults := m.state.page_faults + 1 } }
    page f (PROT_READ ||| PROT_WRITE) hf hlist
  refine ⟨m1, ?_, ?_, ?_, ?_, ?_, ?_, ?_, ?_, ?_⟩
  · simpa [page_fault_handler, page_table_get_entry, hentry, PROT_READ, PROT_WRITE] using h1
  · simp [hent]
  · have := congrArg (fun x => x.2.2.1) hpay
    simpa [frame_info.payload, PROT_READ, PROT_WRITE] using this
  · have := congrArg (fun x => x.2.2.2) hpay
    simpa [frame_info.payload] using this
  · simp [hst]
  · simp [hst]
  · simp [hst]
  · simp [hst]
  · intro q hq
    simp [hent, Function.update_noteq hq]

theorem write_upgrade_contract_witness :
    ∃ m1, page_fault_handler
        ((run (initial TYPE_FIFO 2 (fun _ => 0) (fun _ => 0)) [7, 8]).getD
          (initial TYPE_FIFO 2 (fun _ => 0) (fun _ => 0))) 8 = Outcome.ret m1 ∧
      m1.entries 8 = (1, PROT_READ ||| PROT_WRITE) ∧
      (m1.frame_info 1).bits = PROT_READ ||| PROT_WRITE ∧
      (m1.frame_info 1).page_num = 8 ∧
      m1.state.disk_reads = 2 ∧ m1.state.disk_writes = 0 ∧ m1.state.invalidatings = 0 ∧
      m1.state.free_pages = 2 ∧
      ∀ q, q ≠ 8 → m1.entries q =
        ((run (initial TYPE_FIFO 2 (fun _ => 0) (fun _ => 0)) [7, 8]).getD
          (initial TYPE_FIFO 2 (fun _ => 0) (fun _ => 0))).entries q :=
  write_upgrade_contract
    ((run (initial TYPE_FIFO 2 (fun _ => 0) (fun _ => 0)) [7, 8]).getD
      (initial TYPE_FIFO 2 (fun _ => 0) (fun _ => 0))) 8 1 (by decide) (by decide) (by decide)

/-! ### The code at concrete inputs -/

/-- Claim C2 fails on the code: with two frames under FIFO, after pages 0, 1, 2 were touched
(page 0 was evicted from frame 0 and its entry still names frame 0), the fault on page 0 evicts
page 1 from frame 1 and installs page 0 in frame 1, but its `disk_read` of block 0 targets
the buffer of frame 0, the frame named by the stale entry, which now holds page 2. -/
theorem disk_read_targets_stale_frame :
    ((run (initial TYPE_FIFO 2 (fun _ => 0) (fun _ => 0)) [0, 1, 2, 0]).result.map
        fun m => (m.log.drop 7, m.entries 0, m.entries 2))
      = some ([Event.set_entry 1 1 PROT_NONE, Event.disk_read 0 (0 * PAGE_SIZE),
               Event.set_entry 0 1 PROT_READ], (1, PROT_READ), (0, PROT_READ)) := by
  decide

/-- Claim C7 fails on the code: with one frame, page 0 is touched and then write-upgraded (its
entry ends as `(0, ReadWrite)`), and `frame_info[0].dirty` is still clear. -/
theorem write_upgrade_leaves_dirty_clear :
    ((run (initial TYPE_FIFO 1 (fun _ => 0) (fun _ => 0)) [0]).result.map
        fun m => m.entries 0) = some (0, PROT_READ) ∧
    ((run (initial TYPE_FIFO 1 (fun _ => 0) (fun _ => 0)) [0, 0]).result.map
        fun m => (m.entries 0, (m.frame_info 0).dirty)) =
      some ((0, PROT_READ ||| PROT_WRITE), false) := by
  decide

/-- Claim C8 fails on the code: with one frame, after page 0 was touched and write-upgraded its
entry is `(0, ReadWrite)`; a further fault on page 0 does not end in the fatal error but
returns, having rewritten the same entry. -/
theorem fault_on_read_write_page_returns :
    ((run (initial TYPE_FIFO 1 (fun _ => 0) (fun _ => 0)) [0, 0]).result.map
        fun m => m.entries 0) = some (0, PROT_READ ||| PROT_WRITE) ∧
    ((page_fault_handler
        ((run (initial TYPE_FIFO 1 (fun _ => 0) (fun _ => 0)) [0, 0]).getD
          (initial TYPE_FIFO 1 (fun _ => 0) (fun _ => 0))) 0).result.map
        fun m => (m.entries 0, m.state.page_faults)) =
      some ((0, PROT_READ ||| PROT_WRITE), 3) := by
  decide

/-- Claim C9 fails on the code: on an empty list (`head` and `tail` both `NULL`) `list_pop`
takes its first branch, `head == tail`, and dereferences `head`, so it never returns `UNKNOWN`;
with zero frames under FIFO the first fault reaches that call and the handler does not
return. -/
theorem list_pop_on_empty_list_crashes :
    (∀ m : Machine, list_pop { m with head := none, tail := none } = Outcome.crash) ∧
    page_fault_handler (initial TYPE_FIFO 0 (fun _ => 0) (fun _ => 0)) 0 = Outcome.crash := by
  constructor
  · intro m
    simp [list_pop]
  · rfl

/-! ### One call of the handler, case by case -/

theorem Represents.congr {m m1 : Machine} {q : List Int} (h : Represents m q)
    (hh : m1.head = m.head) (ht : m1.tail = m.tail) (hn : m1.nframes = m.nframes)
    (hc : ∀ g, (m1.frame_info g).cached = (m.frame_info g).cached)
    (hx : ∀ g, (m1.frame_info g).next = (m.frame_info g).next) : Represents m1 q := by
  refine ⟨hh.trans h.head_eq, ht.trans h.tail_eq, ?_, h.nodup, ?_, ?_⟩
  · refine List.Chain'.imp ?_ h.linked
    intro a b hab
    unfold NextLink at hab ⊢
    rw [hx, hab]
  · intro f
    rw [hc]
    exact h.cached_iff f
  · intro f hf
    have := h.valid f hf
    unfold Machine.valid at this ⊢
    rwa [hn]

/-- The machine `flush_page` returns for a frame index of `frame_info`. -/
theorem flush_page_eq (m : Machine) (frame : Int) (hv : m.valid frame) :
    ∃ m1, flush_page m frame = Outcome.ret m1 ∧
      m1.nframes = m.nframes ∧ m1.rand = m.rand ∧ m1.rand_calls = m.rand_calls ∧
      m1.head = m.head ∧ m1.tail = m.tail ∧
      m1.entries = Function.update m.entries (m.frame_info frame).page_num (frame, PROT_NONE) ∧
      m1.state = { m.state with
        disk_writes := m.state.disk_writes +
          (if (m.frame_info frame).bits &&& PROT_WRITE ≠ 0 then 1 else 0),
        invalidatings := m.state.invalidatings + 1 } ∧
      m1.log = m.log ++
        (if (m.frame_info frame).bits &&& PROT_WRITE ≠ 0 then
          [Event.disk_write (m.frame_info frame).page_num (GET_PAGE_PHYS_ADDR frame)] else []) ++
        [Event.set_entry (m.frame_info frame).page_num frame PROT_NONE] ∧
      m1.frame_info = Function.update m.frame_info frame
        { m.frame_info frame with bits := PROT_NONE } := by
  by_cases hw : (m.frame_info frame).bits &&& PROT_WRITE = 0
  · simp [flush_page, hv, hw, page_table_set_entry]
  · simp [flush_page, hv, hw, page_table_set_entry]

theorem flush_page_represents (m m1 : Machine) (frame : Int) (q : List Int)
    (h : flush_page m frame = Outcome.ret m1) (hq : Represents m q) : Represents m1 q := by
  by_cases hv : m.valid frame
  · obtain ⟨m2, h2, hn, -, -, hh, ht, -, -, -, hfi⟩ := flush_page_eq m frame hv
    rw [h] at h2
    cases h2
    refine hq.congr hh ht hn ?_ ?_ <;>
    · intro g
      rw [hfi]
      by_cases e : g = frame
      · subst e; simp
      · simp [Function.update_noteq e]
  · simp [flush_page, hv] at h

theorem install_represents (m : Machine) (page new_frame : Int) (bit : Nat) (q : List Int)
    (hf : m.valid new_frame) (hty : m.state.type = TYPE_FIFO) (hq : Represents m q) :
    ∃ m1, page_fault_handler.install m page new_frame bit = Outcome.ret m1 ∧
      Represents m1 (Queue.enqueue q new_frame) := by
  have hv : 0 ≤ new_frame ∧ new_frame < m.nframes := hf
  have hq2 : Represents
      { page_table_set_entry m page new_frame bit with
        frame_info := Function.update m.frame_info new_frame
          { m.frame_info new_frame with page_num := page, bits := bit % 16, is_free := true } }
      q := by
    refine hq.congr rfl rfl rfl ?_ ?_ <;>
    · intro g
      by_cases e : g = new_frame
      · subst e; simp [page_table_set_entry]
      · simp [page_table_set_entry, Function.update_noteq e]
  obtain ⟨m1, h1, hr, -⟩ := list_push_back_represents _ q new_frame hq2 hf
  refine ⟨m1, ?_, hr⟩
  simp [page_fault_handler.install, page_table_set_entry, Machine.valid, hv, hty]
  simpa [page_table_set_entry] using h1

theorem Represents.list_sane {m : Machine} {q : List Int} (h : Represents m q) :
    m.head ≠ none → m.tail ≠ none := by
  cases q with
  | nil => intro hh; exact absurd (by simpa using h.head_eq) hh
  | cons x xs =>
    intro _
    rw [h.tail_eq, List.getLast?_eq_getLast _ (List.cons_ne_nil _ _)]
    simp

theorem loop_finds (fi : Int → frame_info) (nframes k : Int) (hk : k < nframes)
    (hfree : (fi k).is_free = false) :
    ∀ (fuel : Nat) (i : Int), i ≤ k → k - i < fuel →
      (∀ f, i ≤ f → f < k → (fi f).is_free = true) →
      get_next_free_frame.loop fi nframes fuel i = some k
  | 0, i, hik, hfuel, _ => by omega
  | fuel + 1, i, hik, hfuel, hres => by
    unfold get_next_free_frame.loop
    have hin : i < nframes := by omega
    rw [if_pos hin]
    by_cases e : i = k
    · subst e; rw [if_pos hfree]
    · have hlt : i < k := by omega
      have := hres i (le_refl _) hlt
      rw [if_neg (by simp [this])]
      apply loop_finds fi nframes k hk hfree fuel (i + 1) (by omega) (by push_cast at hfuel ⊢; omega)
      intro f h1 h2
      exact hres f (by omega) h2

theorem get_next_free_frame_full (m : Machine) (h : m.nframes ≤ m.state.free_pages) :
    get_next_free_frame m m.nframes = (m, UNKNOWN) := by
  simp [get_next_free_frame, h]

theorem get_next_free_frame_free (m : Machine) (hlt : m.state.free_pages < m.nframes)
    (hge : 0 ≤ m.state.free_pages)
    (hres : ∀ f, 0 ≤ f → f < m.state.free_pages → (m.frame_info f).is_free = true)
    (hfree : (m.frame_info m.state.free_pages).is_free = false) :
    get_next_free_frame m m.nframes =
      ({ m with state := { m.state with free_pages := m.state.free_pages + 1 } },
        m.state.free_pages) := by
  have := loop_finds m.frame_info m.nframes m.state.free_pages hlt hfree m.nframes.toNat 0 hge
    (by have := Int.toNat_of_nonneg (show 0 ≤ m.nframes by omega); omega) hres
  simp [get_next_free_frame, not_le.mpr hlt, this]

theorem install_full (m : Machine) (page new_frame : Int) (bit : Nat)
    (hf : m.valid new_frame)
    (hlist : m.state.type = TYPE_FIFO → ∃ q, Represents m q) :
    ∃ m1, page_fault_handler.install m page new_frame bit = Outcome.ret m1 ∧
      m1.state = m.state ∧ m1.nframes = m.nframes ∧
      m1.entries = Function.update m.entries page (new_frame, bit) ∧
      m1.log = m.log ++ [Event.set_entry page new_frame bit] ∧
      (m1.frame_info new_frame).payload = (true, (m.frame_info new_frame).dirty, bit % 16, page) ∧
      (∀ g, g ≠ new_frame → (m1.frame_info g).payload = (m.frame_info g).payload) ∧
      (m.state.type = TYPE_FIFO → ∀ q, Represents m q →
        Represents m1 (Queue.enqueue q new_frame)) := by
  by_cases hty : m.state.type = TYPE_FIFO
  · obtain ⟨q0, hq0⟩ := hlist hty
    obtain ⟨m1, h1, a, b, c, d, e, f⟩ := install_spec m page new_frame bit hf hq0.list_sane
    refine ⟨m1, h1, a, b, c, d, e, f, fun _ q hq => ?_⟩
    obtain ⟨m2, h2, hr⟩ := install_represents m page new_frame bit q hf hty hq
    rw [h1] at h2
    cases h2
    exact hr
  · have hv : 0 ≤ new_frame ∧ new_frame < m.nframes := hf
    refine ⟨{ page_table_set_entry m page new_frame bit with
        frame_info := Function.update m.frame_info new_frame
          { m.frame_info new_frame with page_num := page, bits := bit % 16, is_free := true } },
        ?_, rfl, rfl, rfl, rfl, ?_, ?_, fun h => absurd h hty⟩
    · simp [page_fault_handler.install, page_table_set_entry, Machine.valid, hv, hty]
    · simp [page_table_set_entry, frame_info.payload]
    · intro g hg
      simp [page_table_set_entry, Function.update_noteq hg]

/-- A first-touch fault while a frame is free: the frame taken is number `free_pages`. -/
theorem handler_free (m : Machine) (page : Int)
    (hbit : (m.entries page).2 = 0)
    (hlt : m.state.free_pages < m.nframes) (hge : 0 ≤ m.state.free_pages)
    (hres : ∀ f, 0 ≤ f → f < m.state.free_pages → (m.frame_info f).is_free = true)
    (hfree : (m.frame_info m.state.free_pages).is_free = false)
    (hlist : m.state.type = TYPE_FIFO → ∃ q, Represents m q) :
    ∃ m1, page_fault_handler m page = Outcome.ret m1 ∧
      m1.nframes = m.nframes ∧
      m1.state = { m.state with page_faults := m.state.page_faults + 1,
                                free_pages := m.state.free_pages + 1,
                                disk_reads := m.state.disk_reads + 1 } ∧
      m1.entries = Function.update m.entries page (m.state.free_pages, PROT_READ) ∧
      m1.log = m.log ++ [Event.disk_read page (GET_PAGE_PHYS_ADDR (m.entries page).1),
                         Event.set_entry page m.state.free_pages PROT_READ] ∧
      (m1.frame_info m.state.free_pages).payload =
        (true, (m.frame_info m.state.free_pages).dirty, PROT_READ, page) ∧
      (∀ g, g ≠ m.state.free_pages → (m1.frame_info g).payload = (m.frame_info g).payload) ∧
      (m.state.type = TYPE_FIFO → ∀ q, Represents m q →
        Represents m1 (Queue.enqueue q m.state.free_pages)) := by
  have hg := get_next_free_frame_free
    { m with state := { m.state with page_faults := m.state.page_faults + 1 } } hlt hge hres hfree
  have hne : m.state.free_pages ≠ UNKNOWN := by unfold UNKNOWN; omega
  obtain ⟨m1, h1, a, b, c, d, e, f, g⟩ := install_full
    { m with
      log := m.log ++ [Event.disk_read page (GET_PAGE_PHYS_ADDR (m.entries page).1)],
      state := { m.state with page_faults := m.state.page_faults + 1,
                              free_pages := m.state.free_pages + 1,
                              disk_reads := m.state.disk_reads + 1 } }
    page m.state.free_pages (0 ||| PROT_READ) ⟨hge, hlt⟩
    (fun hty => by
      obtain ⟨q, hq⟩ := hlist hty
      exact ⟨q, hq.congr rfl rfl rfl (fun _ => rfl) (fun _ => rfl)⟩)
  refine ⟨m1, ?_, b, a, c, ?_, ?_, f, ?_⟩
  · unfold page_fault_handler
    simp only [page_table_get_entry, hbit, if_true, hg, if_neg hne]
    exact h1
  · simpa [PROT_READ] using d
  · simpa [PROT_READ] using e
  · intro hty q hq
    exact g hty q (hq.congr rfl rfl rfl (fun _ => rfl) (fun _ => rfl))

theorem handler_upgrade (m : Machine) (page f : Int) (b : Nat)
    (hentry : m.entries page = (f, b)) (hb : b = PROT_READ ∨ b = PROT_READ ||| PROT_WRITE)
    (hf : m.valid f)
    (hlist : m.state.type = TYPE_FIFO → ∃ q, Represents m q) :
    ∃ m1, page_fault_handler m page = Outcome.ret m1 ∧
      m1.nframes = m.nframes ∧
      m1.state = { m.state with page_faults := m.state.page_faults + 1 } ∧
      m1.entries = Function.update m.entries page (f, PROT_READ ||| PROT_WRITE) ∧
      m1.log = m.log ++ [Event.set_entry page f (PROT_READ ||| PROT_WRITE)] ∧
      (m1.frame_info f).payload =
        (true, (m.frame_info f).dirty, PROT_READ ||| PROT_WRITE, page) ∧
      (∀ g, g ≠ f → (m1.frame_info g).payload = (m.frame_info g).payload) ∧
      (m.state.type = TYPE_FIFO → ∀ q, Represents m q →
        Represents m1 (Queue.enqueue q f)) := by
  obtain ⟨m1, h1, a, b1, c, d, e, f1, g⟩ := install_full
    { m with state := { m.state with page_faults := m.state.page_faults + 1 } }
    page f (PROT_READ ||| PROT_WRITE) hf
    (fun hty => by
      obtain ⟨q, hq⟩ := hlist hty
      exact ⟨q, hq.congr rfl rfl rfl (fun _ => rfl) (fun _ => rfl)⟩)
  refine ⟨m1, ?_, b1, a, c, d, ?_, f1, ?_⟩
  · rcases hb with rfl | rfl <;>
      simpa [page_fault_handler, page_table_get_entry, hentry, PROT_READ, PROT_WRITE] using h1
  · simpa [PROT_READ, PROT_WRITE] using e
  · intro hty q hq
    exact g hty q (hq.congr rfl rfl rfl (fun _ => rfl) (fun _ => rfl))

theorem finish_evict (m m2 m3 : Machine) (page v : Int)
    (hv : m.valid v)
    (hst : m2.state = { m.state with page_faults := m.state.page_faults + 1 })
    (hen : m2.entries = m.entries) (hlog : m2.log = m.log) (hn : m2.nframes = m.nframes)
    (hpay : ∀ g, (m2.frame_info g).payload = (m.frame_info g).payload)
    (hflush : flush_page m2 v = Outcome.ret m3)
    (hlist : m3.state.type = TYPE_FIFO → ∃ q, Represents m3 q) :
    ∃ m1, page_fault_handler.install
        { m3 with log := m3.log ++ [Event.disk_read page (GET_PAGE_PHYS_ADDR (m.entries page).1)],
                  state := { m3.state with disk_reads := m3.state.disk_reads + 1 } }
        page v (0 ||| PROT_READ) = Outcome.ret m1 ∧
      Evicted m m1 page v ∧
      (m3.state.type = TYPE_FIFO → ∀ q, Represents m3 q → Represents m1 (Queue.enqueue q v)) := by
  have hv2 : m2.valid v := by
    unfold Machine.valid at hv ⊢
    rw [hn]; exact hv
  obtain ⟨m3', h3, f1, -, -, -, -, f6, f7, f8, f9⟩ := flush_page_eq m2 v hv2
  rw [hflush] at h3
  cases h3
  have hv3 : m3.valid v := by
    unfold Machine.valid at hv2 ⊢
    rw [f1]; exact hv2
  have hp := hpay v
  simp only [frame_info.payload, Prod.mk.injEq] at hp
  obtain ⟨-, hp2, hp3, hp4⟩ := hp
  obtain ⟨m1, h1, a, b, c, d, e, f, g⟩ := install_full
    { m3 with log := m3.log ++ [Event.disk_read page (GET_PAGE_PHYS_ADDR (m.entries page).1)],
              state := { m3.state with disk_reads := m3.state.disk_reads + 1 } }
    page v (0 ||| PROT_READ) hv3
    (fun hty => by
      obtain ⟨q, hq⟩ := hlist hty
      exact ⟨q, hq.congr rfl rfl rfl (fun _ => rfl) (fun _ => rfl)⟩)
  refine ⟨m1, h1, ⟨hv, ?_, ?_, ?_, ?_, ?_, ?_⟩, ?_⟩
  · rw [b]; show m3.nframes = _; rw [f1, hn]
  · rw [a]
    simp only [f7, hst, hp3]
  · rw [c]
    simp only [f6, hen, hp4]
    simp [PROT_READ]
  · rw [d]
    simp only [f8, hlog, hp3, hp4]
    simp [PROT_READ]
  · rw [e]
    simp only [f9, frame_info.payload, Function.update_same, hp2]
    simp [PROT_READ]
  · intro g0 hg0
    rw [f g0 hg0]
    simp only [f9, Function.update_noteq hg0]
    exact hpay g0
  · intro hty q hq
    exact g hty q (hq.congr rfl rfl rfl (fun _ => rfl) (fun _ => rfl))

theorem handler_evict_fifo (m : Machine) (page x : Int) (xs : List Int)
    (hbit : (m.entries page).2 = 0)
    (hfull : m.nframes ≤ m.state.free_pages)
    (hty : m.state.type = TYPE_FIFO)
    (hq : Represents m (x :: xs)) :
    ∃ m1, page_fault_handler m page = Outcome.ret m1 ∧ Evicted m m1 page x ∧
      Represents m1 (xs ++ [x]) := by
  have hx : m.valid x := hq.valid x (List.mem_cons_self _ _)
  have hxn : x ∉ xs := (List.nodup_cons.mp hq.nodup).1
  have hg := get_next_free_frame_full
    { m with state := { m.state with page_faults := m.state.page_faults + 1 } } hfull
  obtain ⟨m2, h2, hr2, hs2⟩ := list_pop_represents
    { m with state := { m.state with page_faults := m.state.page_faults + 1 } } x xs
    (hq.congr rfl rfl rfl (fun _ => rfl) (fun _ => rfl))
  have hv2 : m2.valid x := by
    unfold Machine.valid at hx ⊢
    rw [hs2.2.2.2.1]; exact hx
  obtain ⟨m3, h3, f1, -, -, -, -, -, f7, -, -⟩ := flush_page_eq m2 x hv2
  have hr3 : Represents m3 xs := flush_page_represents m2 m3 x xs h3 hr2
  have hty3 : m3.state.type = TYPE_FIFO := by rw [f7]; show m2.state.type = _; rw [hs2.1]; exact hty
  have hty2 : m2.state.type = TYPE_FIFO := by rw [hs2.1]; exact hty
  obtain ⟨m1, h1, hev, hrep⟩ := finish_evict m m2 m3 page x hx hs2.1 hs2.2.1 hs2.2.2.1
    hs2.2.2.2.1 hs2.2.2.2.2.2.2 h3 (fun _ => ⟨xs, hr3⟩)
  have hxu : x ≠ UNKNOWN := by
    have := hx.1
    unfold UNKNOWN; omega
  refine ⟨m1, ?_, hev, ?_⟩
  · have hne : ¬ (m.state.type = TYPE_RAND) := by rw [hty]; decide
    have hevict : page_fault_handler.evict
        { m with state := { m.state with page_faults := m.state.page_faults + 1 } }
        = Outcome.ret (m3, some x) := by
      unfold page_fault_handler.evict
      rw [if_neg hne, if_pos hty, h2]
      simp only [hxu, if_false, h3]
    unfold page_fault_handler
    simp only [page_table_get_entry, hbit, if_true, hg, hevict]
    exact h1
  · have := hrep hty3 xs hr3
    simpa [Queue.enqueue, hxn] using this

theorem handler_evict_rand (m : Machine) (page : Int)
    (hbit : (m.entries page).2 = 0)
    (hfull : m.nframes ≤ m.state.free_pages)
    (hty : m.state.type = TYPE_RAND)
    (hpos : 0 < m.nframes) :
    ∃ m1, page_fault_handler m page = Outcome.ret m1 ∧
      Evicted m m1 page (Int.tmod (m.rand m.rand_calls : Int) m.nframes) := by
  have hx : m.valid (Int.tmod (m.rand m.rand_calls : Int) m.nframes) :=
    ⟨Int.tmod_nonneg _ (Int.ofNat_nonneg _), Int.tmod_lt_of_pos _ hpos⟩
  have hg := get_next_free_frame_full
    { m with state := { m.state with page_faults := m.state.page_faults + 1 } } hfull
  obtain ⟨m3, h3, f1, -, -, -, -, -, f7, -, -⟩ := flush_page_eq
    { m with state := { m.state with page_faults := m.state.page_faults + 1 },
             rand_calls := m.rand_calls + 1 } _ hx
  have hty3 : ¬ (m3.state.type = TYPE_FIFO) := by
    rw [f7]; show ¬ (m.state.type = _); rw [hty]; decide
  obtain ⟨m1, h1, hev, -⟩ := finish_evict m
    { m with state := { m.state with page_faults := m.state.page_faults + 1 },
             rand_calls := m.rand_calls + 1 } m3 page _ hx
    rfl rfl rfl rfl (fun _ => rfl) h3 (fun h => absurd h hty3)
  have hn0 : m.nframes ≠ 0 := by omega
  have hevict : page_fault_handler.evict
      { m with state := { m.state with page_faults := m.state.page_faults + 1 } }
      = Outcome.ret (m3, some (Int.tmod (m.rand m.rand_calls : Int) m.nframes)) := by
    unfold page_fault_handler.evict
    rw [if_pos hty, if_neg hn0]
    simp only [h3]
  refine ⟨m1, ?_, hev⟩
  unfold page_fault_handler
  simp only [page_table_get_entry, hbit, if_true, hg, hevict]
  exact h1

/-! ### The invariant -/

theorem payload_fields {a : frame_info} {x : Bool} {y : Bool} {b : Nat} {p : Int}
    (h : a.payload = (x, y, b, p)) :
    a.is_free = x ∧ a.dirty = y ∧ a.bits = b ∧ a.page_num = p := by
  simpa [frame_info.payload] using h

theorem payload_eq_fields {a c : frame_info} (h : a.payload = c.payload) :
    a.is_free = c.is_free ∧ a.dirty = c.dirty ∧ a.bits = c.bits ∧ a.page_num = c.page_num := by
  simpa [frame_info.payload] using h

theorem initial_inv (type nframes : Int) (mapping : Int → Int) (rand : Nat → Nat)
    (hn : 0 ≤ nframes) : Inv (initial type nframes mapping rand) where
  free_lo := le_refl _
  free_hi := hn
  resident_iff := by intro f; simp [initial]
  vacant_bits := by intro f _; rfl
  dirty_clear := by intro f; rfl
  frame_entry := by intro f h1 h2; simp [initial] at h2; omega
  entry_frame := by intro p hp; simp [initial] at hp
  queue := by
    intro _
    refine ⟨[], initial_represents _ _ _ _, ?_⟩
    intro f; simp [initial]
  reads := rfl
  writes_lo := le_refl _
  writes_hi := le_refl _
  faults := le_refl _

theorem Inv.frame_mapped {m : Machine} (h : Inv m) (f : Int) (h0 : 0 ≤ f)
    (h1 : f < m.state.free_pages) : (m.entries (m.frame_info f).page_num).2 ≠ 0 := by
  obtain ⟨b1, b2⟩ := h.frame_entry f h0 h1
  rw [b1]
  rcases b2 with b2 | b2 <;> simp [b2, PROT_READ, PROT_WRITE]

theorem Inv.loaded {m m1 : Machine} {page : Int} (h : Inv m)
    (hbit : (m.entries page).2 = 0) (hlt : m.state.free_pages < m.nframes)
    (hl : Loaded m m1 page)
    (hrep : m.state.type = TYPE_FIFO → ∀ q, Represents m q →
      Represents m1 (Queue.enqueue q m.state.free_pages)) : Inv m1 := by
  have hfp : m1.state.free_pages = m.state.free_pages + 1 := by rw [hl.state]
  have hty : m1.state.type = m.state.type := by rw [hl.state]
  have hlo := h.free_lo
  obtain ⟨a1, a2, a3, a4⟩ := payload_fields hl.payload_at
  have hoth : ∀ g, g ≠ m.state.free_pages →
      (m1.frame_info g).is_free = (m.frame_info g).is_free ∧
      (m1.frame_info g).dirty = (m.frame_info g).dirty ∧
      (m1.frame_info g).bits = (m.frame_info g).bits ∧
      (m1.frame_info g).page_num = (m.frame_info g).page_num :=
    fun g hg => payload_eq_fields (hl.payload_other g hg)
  refine ⟨by omega, by rw [hl.nframes]; omega, ?_, ?_, ?_, ?_, ?_, ?_, ?_, ?_, ?_, ?_⟩
  · intro f
    by_cases e : f = m.state.free_pages
    · subst e; rw [a1, hfp]; simp; omega
    · rw [(hoth f e).1, h.resident_iff, hfp]; omega
  · intro f hf
    have e : f ≠ m.state.free_pages := by rw [hfp] at hf; omega
    rw [(hoth f e).2.2.1]
    exact h.vacant_bits f (by rw [hfp] at hf; omega)
  · intro f
    by_cases e : f = m.state.free_pages
    · subst e; rw [a2]; exact h.dirty_clear _
    · rw [(hoth f e).2.1]; exact h.dirty_clear _
  · intro f hf0 hf1
    by_cases e : f = m.state.free_pages
    · subst e
      rw [a3, a4, hl.entries]
      simp
    · have hf2 : f < m.state.free_pages := by rw [hfp] at hf1; omega
      obtain ⟨b1, b2⟩ := h.frame_entry f hf0 hf2
      rw [(hoth f e).2.2.1, (hoth f e).2.2.2, hl.entries]
      have hne : (m.frame_info f).page_num ≠ page := by
        intro e2
        have := h.frame_mapped f hf0 hf2
        rw [e2] at this
        exact this hbit
      rw [Function.update_noteq hne]
      exact ⟨b1, b2⟩
  · intro p hp
    by_cases e : p = page
    · subst e
      rw [hl.entries]
      simp only [Function.update_same]
      rw [a4, hfp]
      exact ⟨hlo, by omega, rfl⟩
    · rw [hl.entries, Function.update_noteq e] at hp ⊢
      obtain ⟨c1, c2, c3⟩ := h.entry_frame p hp
      have e2 : (m.entries p).1 ≠ m.state.free_pages := by omega
      rw [(hoth _ e2).2.2.2, hfp]
      exact ⟨c1, by omega, c3⟩
  · intro hf
    rw [hty] at hf
    obtain ⟨q, hq, hmem⟩ := h.queue hf
    have hnot : m.state.free_pages ∉ q := by rw [hmem]; omega
    refine ⟨q ++ [m.state.free_pages], ?_, ?_⟩
    · have := hrep hf q hq
      simpa [Queue.enqueue, hnot] using this
    · intro f
      rw [List.mem_append, hmem, hfp, List.mem_singleton]
      omega
  · rw [hl.state]; simp; rw [h.reads]; omega
  · rw [hl.state]; exact h.writes_lo
  · rw [hl.state]; exact h.writes_hi
  · rw [hl.state]; simp; have := h.faults; omega

theorem Inv.upgraded {m m1 : Machine} {page f : Int} (h : Inv m)
    (hent : (m.entries page).1 = f) (hbit : (m.entries page).2 ≠ 0)
    (hu : Upgraded m m1 page f)
    (hrep : m.state.type = TYPE_FIFO → ∀ q, Represents m q →
      Represents m1 (Queue.enqueue q f)) : Inv m1 := by
  have hfp : m1.state.free_pages = m.state.free_pages := by rw [hu.state]
  have hty : m1.state.type = m.state.type := by rw [hu.state]
  obtain ⟨c1, c2, c3⟩ := h.entry_frame page hbit
  rw [hent] at c1 c2 c3
  obtain ⟨a1, a2, a3, a4⟩ := payload_fields hu.payload_at
  have hoth : ∀ g, g ≠ f →
      (m1.frame_info g).is_free = (m.frame_info g).is_free ∧
      (m1.frame_info g).dirty = (m.frame_info g).dirty ∧
      (m1.frame_info g).bits = (m.frame_info g).bits ∧
      (m1.frame_info g).page_num = (m.frame_info g).page_num :=
    fun g hg => payload_eq_fields (hu.payload_other g hg)
  refine ⟨by rw [hfp]; exact h.free_lo, by rw [hfp, hu.nframes]; exact h.free_hi,
    ?_, ?_, ?_, ?_, ?_, ?_, ?_, ?_, ?_, ?_⟩
  · intro g
    by_cases e : g = f
    · subst e; rw [a1, hfp]; simp; exact ⟨c1, c2⟩
    · rw [(hoth g e).1, h.resident_iff, hfp]
  · intro g hg
    rw [hfp] at hg
    have e : g ≠ f := by intro e; subst e; exact hg ⟨c1, c2⟩
    rw [(hoth g e).2.2.1]
    exact h.vacant_bits g hg
  · intro g
    by_cases e : g = f
    · subst e; rw [a2]; exact h.dirty_clear _
    · rw [(hoth g e).2.1]; exact h.dirty_clear _
  · intro g hg0 hg1
    rw [hfp] at hg1
    by_cases e : g = f
    · subst e
      rw [a3, a4, hu.entries]
      simp
    · obtain ⟨b1, b2⟩ := h.frame_entry g hg0 hg1
      rw [(hoth g e).2.2.1, (hoth g e).2.2.2, hu.entries]
      have hne : (m.frame_info g).page_num ≠ page := by
        intro e2
        rw [e2] at b1
        have := congrArg Prod.fst b1
        simp only [hent] at this
        exact e this.symm
      rw [Function.update_noteq hne]
      exact ⟨b1, b2⟩
  · intro p hp
    by_cases e : p = page
    · subst e
      rw [hu.entries]
      simp only [Function.update_same]
      rw [a4, hfp]
      exact ⟨c1, c2, rfl⟩
    · rw [hu.entries, Function.update_noteq e] at hp ⊢
      obtain ⟨d1, d2, d3⟩ := h.entry_frame p hp
      have e2 : (m.entries p).1 ≠ f := by
        intro e2
        rw [e2, c3] at d3
        exact e d3.symm
      rw [(hoth _ e2).2.2.2, hfp]
      exact ⟨d1, d2, d3⟩
  · intro hf
    rw [hty] at hf
    obtain ⟨q, hq, hmem⟩ := h.queue hf
    have hin : f ∈ q := by rw [hmem]; exact ⟨c1, c2⟩
    refine ⟨q, ?_, ?_⟩
    · have := hrep hf q hq
      simpa [Queue.enqueue, hin] using this
    · intro g
      rw [hmem, hfp]
  · rw [hu.state]; exact h.reads
  · rw [hu.state]; exact h.writes_lo
  · rw [hu.state]; exact h.writes_hi
  · rw [hu.state]; simp; have := h.faults; omega

theorem Inv.evicted {m m1 : Machine} {page v : Int} (h : Inv m)
    (hbit : (m.entries page).2 = 0) (hfull : m.nframes ≤ m.state.free_pages)
    (he : Evicted m m1 page v)
    (hrep : m.state.type = TYPE_FIFO →
      ∃ xs, Represents m (v :: xs) ∧ Represents m1 (xs ++ [v])) : Inv m1 := by
  have hfp : m1.state.free_pages = m.state.free_pages := by rw [he.state]
  have hty : m1.state.type = m.state.type := by rw [he.state]
  have hv0 : 0 ≤ v := he.valid.1
  have hv1 : v < m.state.free_pages := lt_of_lt_of_le he.valid.2 hfull
  obtain ⟨a1, a2, a3, a4⟩ := payload_fields he.payload_at
  have hoth : ∀ g, g ≠ v →
      (m1.frame_info g).is_free = (m.frame_info g).is_free ∧
      (m1.frame_info g).dirty = (m.frame_info g).dirty ∧
      (m1.frame_info g).bits = (m.frame_info g).bits ∧
      (m1.frame_info g).page_num = (m.frame_info g).page_num :=
    fun g hg => payload_eq_fields (he.payload_other g hg)
  obtain ⟨v1, v2⟩ := h.frame_entry v hv0 hv1
  have hvp : (m.frame_info v).page_num ≠ page := by
    intro e2
    have := h.frame_mapped v hv0 hv1
    rw [e2] at this
    exact this hbit
  refine ⟨by rw [hfp]; exact h.free_lo, by rw [hfp, he.nframes]; exact h.free_hi,
    ?_, ?_, ?_, ?_, ?_, ?_, ?_, ?_, ?_, ?_⟩
  · intro g
    by_cases e : g = v
    · subst e; rw [a1, hfp]; simp; exact ⟨hv0, hv1⟩
    · rw [(hoth g e).1, h.resident_iff, hfp]
  · intro g hg
    rw [hfp] at hg
    have e : g ≠ v := by intro e; subst e; exact hg ⟨hv0, hv1⟩
    rw [(hoth g e).2.2.1]
    exact h.vacant_bits g hg
  · intro g
    by_cases e : g = v
    · subst e; rw [a2]; exact h.dirty_clear _
    · rw [(hoth g e).2.1]; exact h.dirty_clear _
  · intro g hg0 hg1
    rw [hfp] at hg1
    by_cases e : g = v
    · subst e
      rw [a3, a4, he.entries]
      simp
    · obtain ⟨b1, b2⟩ := h.frame_entry g hg0 hg1
      rw [(hoth g e).2.2.1, (hoth g e).2.2.2, he.entries]
      have hne : (m.frame_info g).page_num ≠ page := by
        intro e2
        have := h.frame_mapped g hg0 hg1
        rw [e2] at this
        exact this hbit
      have hne2 : (m.frame_info g).page_num ≠ (m.frame_info v).page_num := by
        intro e2
        rw [e2, v1] at b1
        exact e (congrArg Prod.fst b1).symm
      rw [Function.update_noteq hne, Function.update_noteq hne2]
      exact ⟨b1, b2⟩
  · intro p hp
    by_cases e : p = page
    · subst e
      rw [he.entries]
      simp only [Function.update_same]
      rw [a4, hfp]
      exact ⟨hv0, hv1, rfl⟩
    · rw [he.entries, Function.update_noteq e] at hp ⊢
      by_cases e3 : p = (m.frame_info v).page_num
      · subst e3
        simp [PROT_NONE] at hp
      · rw [Function.update_noteq e3] at hp ⊢
        obtain ⟨d1, d2, d3⟩ := h.entry_frame p hp
        have e2 : (m.entries p).1 ≠ v := by
          intro e2
          rw [e2] at d3
          exact e3 d3.symm
        rw [(hoth _ e2).2.2.2, hfp]
        exact ⟨d1, d2, d3⟩
  · intro hf
    rw [hty] at hf
    obtain ⟨q, hq, hmem⟩ := h.queue hf
    obtain ⟨xs, hx1, hx2⟩ := hrep hf
    refine ⟨xs ++ [v], hx2, ?_⟩
    intro g
    rw [hfp, List.mem_append, List.mem_singleton]
    constructor
    · rintro (hg | hg)
      · have := hx1.valid g (List.mem_cons_of_mem _ hg)
        exact ⟨this.1, lt_of_lt_of_le this.2 hfull⟩
      · subst hg; exact ⟨hv0, hv1⟩
    · intro hg
      by_cases e : g = v
      · exact Or.inr e
      · left
        have hgq : g ∈ q := (hmem g).mpr hg
        have hcq := (hq.cached_iff g).mpr hgq
        have := (hx1.cached_iff g).mp hcq
        rcases List.mem_cons.mp this with h1 | h1
        · exact absurd h1 e
        · exact h1
  · rw [he.state]; simp; rw [h.reads]; omega
  · rw [he.state]; simp; have := h.writes_lo; split <;> omega
  · rw [he.state]; simp; have := h.writes_hi; split <;> omega
  · rw [he.state]; simp; have := h.faults; omega

theorem Inv.list_exists {m : Machine} (h : Inv m) :
    m.state.type = TYPE_FIFO → ∃ q, Represents m q :=
  fun hty => (h.queue hty).imp fun _ hq => hq.1

theorem Inv.handler_loaded {m : Machine} (h : Inv m) (page : Int)
    (hbit : (m.entries page).2 = 0) (hlt : m.state.free_pages < m.nframes) :
    ∃ m1, page_fault_handler m page = Outcome.ret m1 ∧ Loaded m m1 page ∧
      (m.state.type = TYPE_FIFO → ∀ q, Represents m q →
        Represents m1 (Queue.enqueue q m.state.free_pages)) := by
  have hfree : (m.frame_info m.state.free_pages).is_free = false := by
    have := (h.resident_iff m.state.free_pages).not.mpr (by omega)
    simpa using this
  obtain ⟨m1, h1, a, b, c, d, e, f, g⟩ := handler_free m page hbit hlt h.free_lo
    (fun f h0 h1 => (h.resident_iff f).mpr ⟨h0, h1⟩) hfree h.list_exists
  exact ⟨m1, h1, ⟨a, b, c, d, e, f⟩, g⟩

theorem Inv.handler_upgraded {m : Machine} (h : Inv m) (page : Int)
    (hbit : (m.entries page).2 ≠ 0) :
    ∃ m1, page_fault_handler m page = Outcome.ret m1 ∧ Upgraded m m1 page (m.entries page).1 ∧
      (m.state.type = TYPE_FIFO → ∀ q, Represents m q →
        Represents m1 (Queue.enqueue q (m.entries page).1)) := by
  obtain ⟨c1, c2, c3⟩ := h.entry_frame page hbit
  obtain ⟨b1, b2⟩ := h.frame_entry _ c1 c2
  rw [c3] at b1
  have hb : (m.entries page).2 = PROT_READ ∨ (m.entries page).2 = PROT_READ ||| PROT_WRITE := by
    rw [b1]; exact b2
  obtain ⟨m1, h1, a, b, c, d, e, f, g⟩ := handler_upgrade m page (m.entries page).1
    (m.entries page).2 rfl hb ⟨c1, lt_of_lt_of_le c2 h.free_hi⟩ h.list_exists
  exact ⟨m1, h1, ⟨a, b, c, d, e, f⟩, g⟩

theorem Inv.handler_evicted {m : Machine} (h : Inv m) (page : Int)
    (hbit : (m.entries page).2 = 0) (hfull : m.nframes ≤ m.state.free_pages)
    (hty : m.state.type = TYPE_RAND ∨ m.state.type = TYPE_FIFO) (hpos : 0 < m.nframes) :
    ∃ m1 v, page_fault_handler m page = Outcome.ret m1 ∧ Evicted m m1 page v ∧
      (m.state.type = TYPE_FIFO →
        ∃ xs, Represents m (v :: xs) ∧ Represents m1 (xs ++ [v])) := by
  rcases hty with hty | hty
  · obtain ⟨m1, h1, he⟩ := handler_evict_rand m page hbit hfull hty hpos
    refine ⟨m1, _, h1, he, fun hf => ?_⟩
    rw [hty] at hf
    exact absurd hf (by decide)
  · obtain ⟨q, hq, hmem⟩ := h.queue hty
    cases q with
    | nil =>
      have := (hmem 0).mpr ⟨le_refl _, by omega⟩
      simp at this
    | cons x xs =>
      obtain ⟨m1, h1, he, hr⟩ := handler_evict_fifo m page x xs hbit hfull hty hq
      exact ⟨m1, x, h1, he, fun _ => ⟨xs, hq, hr⟩⟩

theorem Inv.handler_stuck {m : Machine} (h : Inv m) (page : Int)
    (hbit : (m.entries page).2 = 0) (hfull : m.nframes ≤ m.state.free_pages)
    (hno : ¬ ((m.state.type = TYPE_RAND ∨ m.state.type = TYPE_FIFO) ∧ 0 < m.nframes)) :
    ∀ m1, page_fault_handler m page ≠ Outcome.ret m1 := by
  intro m1
  have hg := get_next_free_frame_full
    { m with state := { m.state with page_faults := m.state.page_faults + 1 } } hfull
  have hn0 : 0 ≤ m.nframes := le_trans h.free_lo h.free_hi
  unfold page_fault_handler
  simp only [page_table_get_entry, hbit, if_true, hg]
  by_cases hr : m.state.type = TYPE_RAND
  · have hz : m.nframes = 0 := by
      by_contra hz
      exact hno ⟨Or.inl hr, by omega⟩
    simp [page_fault_handler.evict, hr, hz]
  · by_cases hf : m.state.type = TYPE_FIFO
    · have hz : m.nframes = 0 := by
        by_contra hz
        exact hno ⟨Or.inr hf, by omega⟩
      obtain ⟨q, hq, hmem⟩ := h.queue hf
      cases q with
      | nil =>
        have hh : m.head = none := by simpa using hq.head_eq
        have ht : m.tail = none := by simpa using hq.tail_eq
        simp [page_fault_handler.evict, hf, TYPE_FIFO, TYPE_RAND, list_pop, hh, ht]
      | cons x xs =>
        have := (hmem x).mp (List.mem_cons_self _ _)
        have := h.free_hi
        omega
    · by_cases hc : m.state.type = TYPE_CUSTOM
      · simp [page_fault_handler.evict, hc, TYPE_CUSTOM, TYPE_RAND, TYPE_FIFO, die]
      · simp [page_fault_handler.evict, hr, hf, hc, die]

/-- The handler keeps the invariant, the frame count and the policy. -/
theorem Inv.step {m m1 : Machine} (h : Inv m) (page : Int)
    (hret : page_fault_handler m page = Outcome.ret m1) :
    Inv m1 ∧ m1.nframes = m.nframes ∧ m1.state.type = m.state.type := by
  by_cases hbit : (m.entries page).2 = 0
  · by_cases hlt : m.state.free_pages < m.nframes
    · obtain ⟨m2, h2, hl, hr⟩ := h.handler_loaded page hbit hlt
      rw [hret] at h2; cases h2
      exact ⟨h.loaded hbit hlt hl hr, hl.nframes, by rw [hl.state]⟩
    · have hfull : m.nframes ≤ m.state.free_pages := not_lt.mp hlt
      by_cases hok : (m.state.type = TYPE_RAND ∨ m.state.type = TYPE_FIFO) ∧ 0 < m.nframes
      · obtain ⟨m2, v, h2, he, hr⟩ := h.handler_evicted page hbit hfull hok.1 hok.2
        rw [hret] at h2; cases h2
        exact ⟨h.evicted hbit hfull he hr, he.nframes, by rw [he.state]⟩
      · exact absurd hret (h.handler_stuck page hbit hfull hok m1)
  · obtain ⟨m2, h2, hu, hr⟩ := h.handler_upgraded page hbit
    rw [hret] at h2; cases h2
    exact ⟨h.upgraded rfl hbit hu hr, hu.nframes, by rw [hu.state]⟩

/-- Under the Random or FIFO policy with at least one frame, the handler returns. -/
theorem Inv.handler_returns {m : Machine} (h : Inv m) (page : Int)
    (hty : m.state.type = TYPE_RAND ∨ m.state.type = TYPE_FIFO) (hpos : 0 < m.nframes) :
    ∃ m1, page_fault_handler m page = Outcome.ret m1 := by
  by_cases hbit : (m.entries page).2 = 0
  · by_cases hlt : m.state.free_pages < m.nframes
    · obtain ⟨m2, h2, -⟩ := h.handler_loaded page hbit hlt
      exact ⟨m2, h2⟩
    · obtain ⟨m2, v, h2, -⟩ := h.handler_evicted page hbit (not_lt.mp hlt) hty hpos
      exact ⟨m2, h2⟩
  · obtain ⟨m2, h2, -⟩ := h.handler_upgraded page hbit
    exact ⟨m2, h2⟩

/-- The three ways a call of the handler can return from a state satisfying the invariant. -/
theorem Inv.step_cases {m m1 : Machine} (h : Inv m) (page : Int)
    (hret : page_fault_handler m page = Outcome.ret m1) :
    ((m.entries page).2 = 0 ∧ m.state.free_pages < m.nframes ∧ Loaded m m1 page) ∨
    ((m.entries page).2 ≠ 0 ∧ Upgraded m m1 page (m.entries page).1) ∨
    ((m.entries page).2 = 0 ∧ m.nframes ≤ m.state.free_pages ∧ ∃ v, Evicted m m1 page v) := by
  by_cases hbit : (m.entries page).2 = 0
  · by_cases hlt : m.state.free_pages < m.nframes
    · obtain ⟨m2, h2, hl, -⟩ := h.handler_loaded page hbit hlt
      rw [hret] at h2; cases h2
      exact Or.inl ⟨hbit, hlt, hl⟩
    · have hfull : m.nframes ≤ m.state.free_pages := not_lt.mp hlt
      by_cases hok : (m.state.type = TYPE_RAND ∨ m.state.type = TYPE_FIFO) ∧ 0 < m.nframes
      · obtain ⟨m2, v, h2, he, -⟩ := h.handler_evicted page hbit hfull hok.1 hok.2
        rw [hret] at h2; cases h2
        exact Or.inr (Or.inr ⟨hbit, hfull, v, he⟩)
      · exact absurd hret (h.handler_stuck page hbit hfull hok m1)
  · obtain ⟨m2, h2, hu, -⟩ := h.handler_upgraded page hbit
    rw [hret] at h2; cases h2
    exact Or.inr (Or.inl ⟨hbit, hu⟩)

theorem run_inv :
    ∀ (t : List Int) (m : Machine), Inv m →
      (m.state.type = TYPE_RAND ∨ m.state.type = TYPE_FIFO) → 0 < m.nframes →
      ∃ m1, run m t = Outcome.ret m1 ∧ Inv m1 ∧ m1.nframes = m.nframes ∧
        m1.state.type = m.state.type
  | [], m, h, _, _ => ⟨m, rfl, h, rfl, rfl⟩
  | page :: rest, m, h, hty, hpos => by
    obtain ⟨m1, h1⟩ := h.handler_returns page hty hpos
    obtain ⟨hi, hn, ht⟩ := h.step page h1
    obtain ⟨m2, h2, hi2, hn2, ht2⟩ := run_inv rest m1 hi (by rw [ht]; exact hty)
      (by rw [hn]; exact hpos)
    exact ⟨m2, by simp only [run, h1]; exact h2, hi2, hn2.trans hn, ht2.trans ht⟩

theorem touched_length_le (t : List Int) : ∀ acc : List Int, acc.length ≤ (touched acc t).length := by
  induction t with
  | nil => intro acc; exact le_refl _
  | cons p t ih =>
    intro acc
    unfold touched
    split
    · exact ih acc
    · have := ih (acc ++ [p])
      simp at this
      omega

theorem touched_subset (t : List Int) :
    ∀ (acc : List Int) (p : Int), p ∈ touched acc t → p ∈ acc ∨ p ∈ t := by
  induction t with
  | nil => intro acc p hp; exact Or.inl hp
  | cons a t ih =>
    intro acc p hp
    unfold touched at hp
    split at hp
    · rcases ih acc p hp with h | h
      · exact Or.inl h
      · exact Or.inr (List.mem_cons_of_mem _ h)
    · rcases ih (acc ++ [a]) p hp with h | h
      · rcases List.mem_append.mp h with h | h
        · exact Or.inl h
        · exact Or.inr (by rw [List.mem_singleton.mp h]; exact List.mem_cons_self _ _)
      · exact Or.inr (List.mem_cons_of_mem _ h)

theorem touched_nodup (t : List Int) (hnd : t.Nodup) :
    ∀ acc : List Int, (∀ p ∈ t, p ∉ acc) → touched acc t = acc ++ t := by
  induction t with
  | nil => intro acc _; simp [touched]
  | cons a t ih =>
    intro acc hacc
    have ha : a ∉ acc := hacc a (List.mem_cons_self _ _)
    unfold touched
    rw [if_neg ha, ih (List.nodup_cons.mp hnd).2 (acc ++ [a])]
    · simp
    · intro p hp
      rw [List.mem_append, List.mem_singleton]
      rintro (h | h)
      · exact hacc p (List.mem_cons_of_mem _ hp) h
      · subst h; exact (List.nodup_cons.mp hnd).1 hp

theorem frames_upto_succ (n : Nat) : frames_upto (n + 1) = frames_upto n ++ [(n : Int)] := by
  simp [frames_upto, List.range_succ]

theorem mem_frames_upto (n : Nat) (f : Int) : f ∈ frames_upto n ↔ 0 ≤ f ∧ f < n := by
  simp only [frames_upto, List.mem_map, List.mem_range]
  constructor
  · rintro ⟨i, hi, rfl⟩
    exact ⟨Int.ofNat_nonneg _, by exact_mod_cast hi⟩
  · rintro ⟨h0, h1⟩
    refine ⟨f.toNat, ?_, ?_⟩
    · omega
    · exact Int.toNat_of_nonneg h0

theorem Filling.page_at {m : Machine} {ps : List Int} (h : Filling m ps) (i : Nat)
    (hi : i < ps.length) : (m.frame_info (i : Int)).page_num = ps[i] := by
  have := h.holds
  have h2 : ps[i]? = ((List.range ps.length).map
      fun (i : Nat) => (m.frame_info (i : Int)).page_num)[i]? := by rw [← this]
  rw [List.getElem?_eq_getElem hi, List.getElem?_map, List.getElem?_range hi] at h2
  simpa using h2.symm

theorem Filling.mapped_iff {m : Machine} {ps : List Int} (h : Filling m ps) (p : Int) :
    (m.entries p).2 ≠ PROT_NONE ↔ p ∈ ps := by
  constructor
  · intro hp
    obtain ⟨c1, c2, c3⟩ := h.inv.entry_frame p hp
    rw [h.count] at c2
    have hi : ((m.entries p).1).toNat < ps.length := by omega
    have := h.page_at _ hi
    rw [Int.toNat_of_nonneg c1, c3] at this
    rw [this]
    exact List.getElem_mem _
  · intro hp
    obtain ⟨i, hi, rfl⟩ := List.getElem_of_mem hp
    rw [← h.page_at i hi]
    exact h.inv.frame_mapped i (Int.ofNat_nonneg _) (by rw [h.count]; exact_mod_cast hi)

theorem initial_filling (type nframes : Int) (mapping : Int → Int) (rand : Nat → Nat)
    (hn : 0 ≤ nframes) : Filling (initial type nframes mapping rand) [] where
  inv := initial_inv type nframes mapping rand hn
  count := rfl
  holds := rfl
  no_eviction := rfl
  queue := fun _ => initial_represents _ _ _ _
  events := by intro e he; simp [initial] at he

theorem Filling.after_load {m m1 : Machine} {ps : List Int} {page : Int} (h : Filling m ps)
    (hbit : (m.entries page).2 = 0) (hlt : m.state.free_pages < m.nframes)
    (hl : Loaded m m1 page)
    (hrep : m.state.type = TYPE_FIFO → ∀ q, Represents m q →
      Represents m1 (Queue.enqueue q m.state.free_pages)) : Filling m1 (ps ++ [page]) := by
  obtain ⟨a1, a2, a3, a4⟩ := payload_fields hl.payload_at
  refine ⟨h.inv.loaded hbit hlt hl hrep, ?_, ?_, ?_, ?_, ?_⟩
  · rw [hl.state]; simp; rw [h.count]
  · rw [List.length_append, List.length_singleton, List.range_succ, List.map_append]
    congr 1
    · conv_lhs => rw [h.holds]
      apply List.map_congr_left
      intro i hi
      rw [List.mem_range] at hi
      have hne : (i : Int) ≠ m.state.free_pages := by rw [h.count]; omega
      exact (payload_eq_fields (hl.payload_other _ hne)).2.2.2.symm
    · simp only [List.map_cons, List.map_nil]
      rw [← h.count, a4]
  · rw [hl.state]; exact h.no_eviction
  · intro hf
    have hf0 : m.state.type = TYPE_FIFO := by rw [hl.state] at hf; exact hf
    have := hrep hf0 _ (h.queue hf0)
    have hnot : m.state.free_pages ∉ frames_upto ps.length := by
      rw [mem_frames_upto, h.count]; omega
    rw [Queue.enqueue, if_neg hnot, h.count] at this
    rw [List.length_append, List.length_singleton, frames_upto_succ]
    exact this
  · intro e he
    rw [hl.log, List.mem_append] at he
    rcases he with he | he
    · exact h.events e he
    · simp only [List.mem_cons, List.mem_singleton, List.not_mem_nil, or_false] at he
      rcases he with rfl | rfl
      · exact Or.inl ⟨_, _, rfl⟩
      · exact Or.inr ⟨_, _, _, rfl, by decide⟩

theorem Filling.after_upgrade {m m1 : Machine} {ps : List Int} {page : Int} (h : Filling m ps)
    (hbit : (m.entries page).2 ≠ 0) (hu : Upgraded m m1 page (m.entries page).1)
    (hrep : m.state.type = TYPE_FIFO → ∀ q, Represents m q →
      Represents m1 (Queue.enqueue q (m.entries page).1)) : Filling m1 ps := by
  obtain ⟨a1, a2, a3, a4⟩ := payload_fields hu.payload_at
  obtain ⟨c1, c2, c3⟩ := h.inv.entry_frame page hbit
  refine ⟨h.inv.upgraded rfl hbit hu hrep, ?_, ?_, ?_, ?_, ?_⟩
  · rw [hu.state]; exact h.count
  · conv_lhs => rw [h.holds]
    apply List.map_congr_left
    intro i _
    by_cases e : (i : Int) = (m.entries page).1
    · rw [e, a4, c3]
    · exact (payload_eq_fields (hu.payload_other _ e)).2.2.2.symm
  · rw [hu.state]; exact h.no_eviction
  · intro hf
    have hf0 : m.state.type = TYPE_FIFO := by rw [hu.state] at hf; exact hf
    have := hrep hf0 _ (h.queue hf0)
    have hin : (m.entries page).1 ∈ frames_upto ps.length := by
      rw [mem_frames_upto, ← h.count]; exact ⟨c1, c2⟩
    rwa [Queue.enqueue, if_pos hin] at this
  · intro e he
    rw [hu.log, List.mem_append] at he
    rcases he with he | he
    · exact h.events e he
    · rw [List.mem_singleton] at he
      subst he
      exact Or.inr ⟨_, _, _, rfl, by decide⟩

theorem run_filling :
    ∀ (t ps : List Int) (m : Machine), Filling m ps →
      ((touched ps t).length : Int) ≤ m.nframes →
      ∃ m1, run m t = Outcome.ret m1 ∧ Filling m1 (touched ps t) ∧
        m1.nframes = m.nframes ∧ m1.state.type = m.state.type ∧
        m1.state.page_faults = m.state.page_faults + t.length ∧
        (∀ p, p ∉ t → m1.entries p = m.entries p) ∧
        (∀ p, p ∉ ps → t.count p = 1 → (m1.entries p).2 = PROT_READ)
  | [], ps, m, h, _ => ⟨m, rfl, h, rfl, rfl, by simp, fun _ _ => rfl, by simp⟩
  | page :: rest, ps, m, h, hlen => by
    by_cases hin : page ∈ ps
    · have hbit : (m.entries page).2 ≠ 0 := (h.mapped_iff page).mpr hin
      obtain ⟨m1, h1, hu, hr⟩ := h.inv.handler_upgraded page hbit
      have hf1 : Filling m1 ps := h.after_upgrade hbit hu hr
      have ht : touched ps (page :: rest) = touched ps rest := by
        simp only [touched, hin, if_true]
      rw [ht] at hlen ⊢
      obtain ⟨m2, h2, hf2, hn2, hty2, hpf2, hent2, hcnt2⟩ := run_filling rest ps m1 hf1
        (by rw [hu.nframes]; exact hlen)
      refine ⟨m2, by simp only [run, h1]; exact h2, hf2, hn2.trans hu.nframes, ?_, ?_, ?_, ?_⟩
      · rw [hty2, hu.state]
      · rw [hpf2, hu.state]; simp; omega
      · intro p hp
        have hp1 : p ≠ page := fun e => hp (e ▸ List.mem_cons_self _ _)
        rw [hent2 p (fun e => hp (List.mem_cons_of_mem _ e)), hu.entries,
          Function.update_noteq hp1]
      · intro p hp hc
        have hp1 : page ≠ p := fun e => hp (e ▸ hin)
        rw [List.count_cons_of_ne hp1.symm] at hc
        exact hcnt2 p hp hc
    · have hbit : (m.entries page).2 = 0 := by
        by_contra hb
        exact hin ((h.mapped_iff page).mp hb)
      have ht : touched ps (page :: rest) = touched (ps ++ [page]) rest := by
        simp only [touched, hin, if_false]
      rw [ht] at hlen ⊢
      have hlt : m.state.free_pages < m.nframes := by
        have := touched_length_le rest (ps ++ [page])
        rw [List.length_append, List.length_singleton] at this
        rw [h.count]
        omega
      obtain ⟨m1, h1, hl, hr⟩ := h.inv.handler_loaded page hbit hlt
      have hf1 : Filling m1 (ps ++ [page]) := h.after_load hbit hlt hl hr
      obtain ⟨m2, h2, hf2, hn2, hty2, hpf2, hent2, hcnt2⟩ := run_filling rest (ps ++ [page]) m1 hf1
        (by rw [hl.nframes]; exact hlen)
      refine ⟨m2, by simp only [run, h1]; exact h2, hf2, hn2.trans hl.nframes, ?_, ?_, ?_, ?_⟩
      · rw [hty2, hl.state]
      · rw [hpf2, hl.state]; simp; omega
      · intro p hp
        have hp1 : p ≠ page := fun e => hp (e ▸ List.mem_cons_self _ _)
        rw [hent2 p (fun e => hp (List.mem_cons_of_mem _ e)), hl.entries,
          Function.update_noteq hp1]
      · intro p hp hc
        by_cases e : p = page
        · subst e
          rw [List.count_cons_self] at hc
          have hnr : p ∉ rest := by
            rw [← List.count_eq_zero]; omega
          rw [hent2 p hnr, hl.entries]
          simp
        · have e' : page ≠ p := fun x => e x.symm
          rw [List.count_cons_of_ne e'.symm] at hc
          refine hcnt2 p ?_ hc
          rw [List.mem_append, List.mem_singleton]
          rintro (x | x)
          · exact hp x
          · exact e x

theorem touched_keeps_nodup (t : List Int) :
    ∀ acc : List Int, acc.Nodup → (touched acc t).Nodup := by
  induction t with
  | nil => intro acc h; exact h
  | cons a t ih =>
    intro acc h
    unfold touched
    split
    · exact ih acc h
    · rename_i hna
      exact ih _ (List.Nodup.append h (List.nodup_singleton _) (by simpa using hna))

/-- Claim C5: from the initial state, under any policy, first-touch faults on `k ≤ nframes`
distinct pages in turn all return and evict nothing: the `i`-th page (from 0) is installed in
frame `i` with Read permission, `frame_info[i]` is resident and records that page with bits
`PROT_READ`, no entry is revoked and no disk write made, and the counters end at
`page_faults = k`, `disk_reads = k`, `disk_writes = 0`, `invalidatings = 0`. -/
theorem first_touches_fill_frames (type nframes : Int) (mapping : Int → Int) (rand : Nat → Nat)
    (ps : List Int) (hdistinct : ps.Nodup) (hk : (ps.length : Int) ≤ nframes) :
    ∃ m, run (initial type nframes mapping rand) ps = Outcome.ret m ∧
      (∀ (i : Nat) (hi : i < ps.length),
        m.entries ps[i] = ((i : Int), PROT_READ) ∧
        (m.frame_info (i : Int)).is_free = true ∧
        (m.frame_info (i : Int)).page_num = ps[i] ∧
        (m.frame_info (i : Int)).bits = PROT_READ) ∧
      (∀ p f, Event.set_entry p f PROT_NONE ∉ m.log) ∧
      (∀ p a, Event.disk_write p a ∉ m.log) ∧
      m.state.page_faults = ps.length ∧ m.state.disk_reads = ps.length ∧
      m.state.disk_writes = 0 ∧ m.state.invalidatings = 0 := by
  have ht : touched [] ps = ps := by
    rw [touched_nodup ps hdistinct [] (by simp)]; simp
  obtain ⟨m, h1, hf, -, -, hpf, -, hcnt⟩ := run_filling ps [] (initial type nframes mapping rand)
    (initial_filling type nframes mapping rand (by omega)) (by rw [ht]; exact hk)
  rw [ht] at hf
  refine ⟨m, h1, ?_, ?_, ?_, ?_, ?_, ?_, hf.no_eviction⟩
  · intro i hi
    have hpa := hf.page_at i hi
    have hi2 : (i : Int) < m.state.free_pages := by rw [hf.count]; exact_mod_cast hi
    obtain ⟨b1, -⟩ := hf.inv.frame_entry i (Int.ofNat_nonneg _) hi2
    rw [hpa] at b1
    have hb : (m.entries ps[i]).2 = PROT_READ :=
      hcnt ps[i] (by simp) (List.count_eq_one_of_mem hdistinct (List.getElem_mem _))
    have hb2 : (m.frame_info (i : Int)).bits = PROT_READ := by
      rw [b1] at hb; exact hb
    refine ⟨by rw [b1, hb2], ?_, hpa, hb2⟩
    exact (hf.inv.resident_iff i).mpr ⟨Int.ofNat_nonneg _, hi2⟩
  · intro p f hmem
    rcases hf.events _ hmem with ⟨_, _, h⟩ | ⟨_, _, _, h, hb⟩
    · cases h
    · cases h; exact hb rfl
  · intro p a hmem
    rcases hf.events _ hmem with ⟨_, _, h⟩ | ⟨_, _, _, h, _⟩
    · cases h
    · cases h
  · rw [hpf]; simp [initial]
  · rw [hf.inv.reads, hf.count, hf.no_eviction]; simp
  · have h1 := hf.inv.writes_lo
    have h2 := hf.inv.writes_hi
    rw [hf.no_eviction] at h2
    omega

theorem first_touches_fill_frames_witness :
    ∃ m, run (initial TYPE_CUSTOM 4 (fun _ => 0) (fun _ => 0)) [10, 11, 12, 13] = Outcome.ret m ∧
      (∀ (i : Nat) (hi : i < [10, 11, 12, 13].length),
        m.entries ([10, 11, 12, 13] : List Int)[i] = ((i : Int), PROT_READ) ∧
        (m.frame_info (i : Int)).is_free = true ∧
        (m.frame_info (i : Int)).page_num = ([10, 11, 12, 13] : List Int)[i] ∧
        (m.frame_info (i : Int)).bits = PROT_READ) ∧
      (∀ p f, Event.set_entry p f PROT_NONE ∉ m.log) ∧
      (∀ p a, Event.disk_write p a ∉ m.log) ∧
      m.state.page_faults = ([10, 11, 12, 13] : List Int).length ∧
      m.state.disk_reads = ([10, 11, 12, 13] : List Int).length ∧
      m.state.disk_writes = 0 ∧ m.state.invalidatings = 0 :=
  first_touches_fill_frames TYPE_CUSTOM 4 (fun _ => 0) (fun _ => 0) [10, 11, 12, 13]
    (by decide) (by decide)

/-- Claim C1: under FIFO, from the initial state, let the faults of `t` touch `nframes ≥ 1`
distinct pages, `p1 :: rest` in the order of their first fault, every other fault of `t` being
a fault on a page already mapped.  Then the run returns with `p1` mapped in frame 0, and the
next fault, on a page `q` not in `t`, evicts `p1`: `list_pop` returns frame 0, the frame
holding `p1`; `p1`'s entry becomes `PROT_NONE`; `q` is installed in frame 0; and the pages
of `rest` keep their entries and stay mapped. -/
theorem fifo_evicts_first_resident (nframes : Int) (mapping : Int → Int) (rand : Nat → Nat)
    (t : List Int) (q p1 : Int) (rest : List Int)
    (hpages : touched [] t = p1 :: rest) (hcount : ((p1 :: rest).length : Int) = nframes)
    (hq : q ∉ t) :
    ∃ m m1, run (initial TYPE_FIFO nframes mapping rand) t = Outcome.ret m ∧
      (∃ b, m.entries p1 = (0, b) ∧ b ≠ PROT_NONE) ∧ (m.frame_info 0).page_num = p1 ∧
      (∃ m2, list_pop m = Outcome.ret (m2, 0)) ∧
      page_fault_handler m q = Outcome.ret m1 ∧
      m1.entries p1 = (0, PROT_NONE) ∧ m1.entries q = (0, PROT_READ) ∧
      (m1.frame_info 0).page_num = q ∧
      ∀ p ∈ rest, m1.entries p = m.entries p ∧ (m1.entries p).2 ≠ PROT_NONE := by
  obtain ⟨m, h1, hf, hn, hty, -, -, -⟩ := run_filling t [] (initial TYPE_FIFO nframes mapping rand)
    (initial_filling TYPE_FIFO nframes mapping rand (by rw [← hcount]; omega))
    (by rw [hpages, hcount]; exact le_refl _)
  rw [hpages] at hf
  have hty1 : m.state.type = TYPE_FIFO := hty
  have hn1 : m.nframes = nframes := hn
  have hfull : m.nframes ≤ m.state.free_pages := by rw [hn1, hf.count, hcount]
  have hqn : q ∉ p1 :: rest := by
    intro hmem
    rw [← hpages] at hmem
    rcases touched_subset t [] q hmem with h | h
    · simp at h
    · exact hq h
  have hbit : (m.entries q).2 = 0 := by
    by_contra hb
    exact hqn ((hf.mapped_iff q).mp hb)
  have hnd : (p1 :: rest).Nodup := by
    rw [← hpages]; exact touched_keeps_nodup t [] List.nodup_nil
  obtain ⟨xs, hxs⟩ : ∃ xs, frames_upto (p1 :: rest).length = 0 :: xs := by
    refine ⟨(List.range rest.length).map fun (i : Nat) => ((i + 1 : Nat) : Int), ?_⟩
    simp [frames_upto, List.range_succ_eq_map]
  have hrep : Represents m (0 :: xs) := by rw [← hxs]; exact hf.queue hty1
  obtain ⟨m2, h2, -, -⟩ := list_pop_represents m 0 xs hrep
  obtain ⟨m1, h3, he, -⟩ := handler_evict_fifo m q 0 xs hbit hfull hty1 hrep
  have hp0 : (m.frame_info 0).page_num = p1 := by
    have := hf.page_at 0 (by simp)
    simpa using this
  have hfp : (0 : Int) < m.state.free_pages := by rw [hf.count]; simp
  obtain ⟨b1, b2⟩ := hf.inv.frame_entry 0 (le_refl _) hfp
  rw [hp0] at b1
  have hp1q : p1 ≠ q := fun e => hqn (e ▸ List.mem_cons_self _ _)
  obtain ⟨-, -, -, a4⟩ := payload_fields he.payload_at
  refine ⟨m, m1, h1, ⟨_, b1, ?_⟩, hp0, ⟨m2, h2⟩, h3, ?_, ?_, a4, ?_⟩
  · rcases b2 with b2 | b2 <;> rw [b2] <;> decide
  · rw [he.entries, Function.update_noteq hp1q, hp0]; simp
  · rw [he.entries]; simp
  · intro p hp
    have hpq : p ≠ q := fun e => hqn (e ▸ List.mem_cons_of_mem _ hp)
    have hpp : p ≠ p1 := fun e => (List.nodup_cons.mp hnd).1 (e ▸ hp)
    have : m1.entries p = m.entries p := by
      rw [he.entries, Function.update_noteq hpq, hp0, Function.update_noteq hpp]
    exact ⟨this, by rw [this]; exact (hf.mapped_iff p).mpr (List.mem_cons_of_mem _ hp)⟩

theorem fifo_evicts_first_resident_witness :
    ∃ m m1, run (initial TYPE_FIFO 2 (fun _ => 0) (fun _ => 0)) [0, 1, 0] = Outcome.ret m ∧
      (∃ b, m.entries 0 = (0, b) ∧ b ≠ PROT_NONE) ∧ (m.frame_info 0).page_num = 0 ∧
      (∃ m2, list_pop m = Outcome.ret (m2, 0)) ∧
      page_fault_handler m 2 = Outcome.ret m1 ∧
      m1.entries 0 = (0, PROT_NONE) ∧ m1.entries 2 = (0, PROT_READ) ∧
      (m1.frame_info 0).page_num = 2 ∧
      ∀ p ∈ [1], m1.entries p = m.entries p ∧ (m1.entries p).2 ≠ PROT_NONE :=
  fifo_evicts_first_resident 2 (fun _ => 0) (fun _ => 0) [0, 1, 0] 2 0 [1]
    (by decide) (by decide) (by decide)

/-! ### The `dirty` flag -/

/-- Claim C7, as amended: a write-upgrade fault on a page whose entry is `(f, Read)` returns
with `frame_info[f].dirty` as it was before the call, and with `PROT_WRITE` set in
`frame_info[f].bits` (which become ReadWrite), the bit `flush_page` tests before writing the
page back. -/
theorem write_upgrade_records_write_in_bits (m : Machine) (page f : Int)
    (hentry : m.entries page = (f, PROT_READ)) (hf : m.valid f)
    (hlist : m.head ≠ none → m.tail ≠ none) :
    ∃ m1, page_fault_handler m page = Outcome.ret m1 ∧
      (m1.frame_info f).dirty = (m.frame_info f).dirty ∧
      (m1.frame_info f).bits = PROT_READ ||| PROT_WRITE ∧
      (m1.frame_info f).bits &&& PROT_WRITE ≠ 0 := by
  obtain ⟨m1, h1, -, -, -, -, hpay, -⟩ := install_spec
    { m with state := { m.state with page_faults := m.state.page_faults + 1 } }
    page f (PROT_READ ||| PROT_WRITE) hf hlist
  obtain ⟨-, a2, a3, -⟩ := payload_fields hpay
  have hb : (m1.frame_info f).bits = PROT_READ ||| PROT_WRITE := by
    rw [a3]; decide
  refine ⟨m1, ?_, a2, hb, ?_⟩
  · simpa [page_fault_handler, page_table_get_entry, hentry, PROT_READ, PROT_WRITE] using h1
  · rw [hb]; decide

theorem write_upgrade_records_write_in_bits_witness :
    ∃ m1, page_fault_handler
        ((run (initial TYPE_RAND 2 (fun _ => 0) (fun _ => 0)) [4, 9]).getD
          (initial TYPE_RAND 2 (fun _ => 0) (fun _ => 0))) 9 = Outcome.ret m1 ∧
      (m1.frame_info 1).dirty =
        (((run (initial TYPE_RAND 2 (fun _ => 0) (fun _ => 0)) [4, 9]).getD
          (initial TYPE_RAND 2 (fun _ => 0) (fun _ => 0))).frame_info 1).dirty ∧
      (m1.frame_info 1).bits = PROT_READ ||| PROT_WRITE ∧
      (m1.frame_info 1).bits &&& PROT_WRITE ≠ 0 :=
  write_upgrade_records_write_in_bits
    ((run (initial TYPE_RAND 2 (fun _ => 0) (fun _ => 0)) [4, 9]).getD
      (initial TYPE_RAND 2 (fun _ => 0) (fun _ => 0))) 9 1 (by decide) (by decide) (by decide)

/-! ### The chain from `head` to `tail` -/

theorem frames_upto_nodup (n : Nat) : (frames_upto n).Nodup := by
  unfold frames_upto
  exact (List.nodup_range n).map (fun a b h => by exact_mod_cast h)

theorem frames_upto_length (n : Nat) : (frames_upto n).length = n := by
  simp [frames_upto]

/-- A list of distinct frame indices below `n` has at most `n` elements. -/
theorem length_le_of_frames (l : List Int) (n : Int) (hnd : l.Nodup)
    (hl : ∀ f ∈ l, 0 ≤ f ∧ f < n) : l.length ≤ n.toNat := by
  have hsub : l ⊆ frames_upto n.toNat := by
    intro f hf
    rw [mem_frames_upto]
    have := hl f hf
    omega
  have := (hnd.subperm hsub).length_le
  rwa [frames_upto_length] at this

theorem chain_from_eq (fi : Int → frame_info) (tail : Option Int) :
    ∀ (l : List Int) (fuel : Nat), l.Nodup → l.Chain' (NextLink fi) → l.getLast? = tail →
      l.length ≤ fuel → chain_from fi tail fuel l.head? = l
  | [], fuel, _, _, _, _ => by cases fuel <;> rfl
  | [a], fuel, _, _, hlast, hfuel => by
    cases fuel with
    | zero => simp at hfuel
    | succ k =>
      have : some a = tail := by simpa using hlast
      simp [chain_from, this]
  | a :: b :: r, fuel, hnd, hch, hlast, hfuel => by
    cases fuel with
    | zero => simp at hfuel
    | succ k =>
      have ha : a ∉ b :: r := (List.nodup_cons.mp hnd).1
      have hne : some a ≠ tail := by
        intro e
        rw [← hlast, List.getLast?_cons_cons] at e
        exact ha (List.mem_of_getLast?_eq_some e.symm)
      have hnext : (fi a).next = some b := (List.chain'_cons.mp hch).1
      have ih := chain_from_eq fi tail (b :: r) k (List.nodup_cons.mp hnd).2
        (List.chain'_cons.mp hch).2 (by rw [← hlast, List.getLast?_cons_cons])
        (by simp at hfuel ⊢; omega)
      simp only [List.head?_cons] at ih ⊢
      simp only [chain_from, if_neg hne, hnext, ih]

/-- The chain computed from `head` is the sequence the list represents. -/
theorem Represents.chain_eq {m : Machine} {q : List Int} (h : Represents m q) :
    m.chain = q := by
  unfold Machine.chain
  rw [h.head_eq]
  exact chain_from_eq m.frame_info m.tail q _ h.nodup h.linked h.tail_eq.symm
    (length_le_of_frames q m.nframes h.nodup h.valid)

theorem list_exec_keeps_represents :
    ∀ (ops : List ListOp) (m m1 : Machine) (q out : List Int), Represents m q →
      list_exec m ops = Outcome.ret (m1, out) → ∃ q1, Represents m1 q1
  | [], m, m1, q, out, hq, hrun => by
    simp only [list_exec, Outcome.ret.injEq, Prod.mk.injEq] at hrun
    obtain ⟨rfl, -⟩ := hrun
    exact ⟨q, hq⟩
  | ListOp.push frame :: rest, m, m1, q, out, hq, hrun => by
    by_cases hv : m.valid frame
    · obtain ⟨m2, h2, hr2, -⟩ := list_push_back_represents m q frame hq hv
      simp only [list_exec, h2] at hrun
      exact list_exec_keeps_represents rest m2 m1 _ out hr2 hrun
    · simp [list_exec, list_push_back, hv] at hrun
  | ListOp.pop :: rest, m, m1, q, out, hq, hrun => by
    cases q with
    | nil =>
      have hh : m.head = none := by simpa using hq.head_eq
      have ht : m.tail = none := by simpa using hq.tail_eq
      simp [list_exec, list_pop, hh, ht] at hrun
    | cons x xs =>
      obtain ⟨m2, h2, hr2, -⟩ := list_pop_represents m x xs hq
      simp only [list_exec, h2] at hrun
      cases hrest : list_exec m2 rest with
      | ret r =>
        obtain ⟨m3, out3⟩ := r
        simp only [hrest, Outcome.ret.injEq, Prod.mk.injEq] at hrun
        obtain ⟨rfl, -⟩ := hrun
        exact list_exec_keeps_represents rest m2 m3 xs out3 hr2 hrest
      | exit c s x => simp [hrest] at hrun
      | crash => simp [hrest] at hrun

/-- Claim C11: in every state reached from the empty list (`head` and `tail` both `NULL`, no
`cached` flag set) by completed calls of `list_push_back` and `list_pop`, no frame index
occurs twice in the chain from `head` to `tail`, and a frame's `cached` flag is set exactly
when the frame occurs in that chain. -/
theorem chain_nodup_and_cached (m m1 : Machine) (ops : List ListOp) (out : List Int)
    (hhead : m.head = none) (htail : m.tail = none)
    (hcached : ∀ f, (m.frame_info f).cached = false)
    (hrun : list_exec m ops = Outcome.ret (m1, out)) :
    m1.chain.Nodup ∧ ∀ f, (m1.frame_info f).cached = true ↔ f ∈ m1.chain := by
  have h0 : Represents m [] :=
    ⟨by simp [hhead], by simp [htail], List.chain'_nil, List.nodup_nil,
      by intro f; simp [hcached f], by simp⟩
  obtain ⟨q, hq⟩ := list_exec_keeps_represents ops m m1 [] out h0 hrun
  rw [hq.chain_eq]
  exact ⟨hq.nodup, hq.cached_iff⟩

theorem chain_nodup_and_cached_witness :
    ((list_exec (initial TYPE_FIFO 3 (fun _ => 0) (fun _ => 0))
        [ListOp.push 2, ListOp.push 0, ListOp.push 2, ListOp.pop, ListOp.push 1]).getD
      (initial TYPE_FIFO 3 (fun _ => 0) (fun _ => 0), [])).1.chain.Nodup ∧
    ∀ f, (((list_exec (initial TYPE_FIFO 3 (fun _ => 0) (fun _ => 0))
        [ListOp.push 2, ListOp.push 0, ListOp.push 2, ListOp.pop, ListOp.push 1]).getD
      (initial TYPE_FIFO 3 (fun _ => 0) (fun _ => 0), [])).1.frame_info f).cached = true ↔
      f ∈ ((list_exec (initial TYPE_FIFO 3 (fun _ => 0) (fun _ => 0))
        [ListOp.push 2, ListOp.push 0, ListOp.push 2, ListOp.pop, ListOp.push 1]).getD
      (initial TYPE_FIFO 3 (fun _ => 0) (fun _ => 0), [])).1.chain :=
  chain_nodup_and_cached (initial TYPE_FIFO 3 (fun _ => 0) (fun _ => 0)) _
    [ListOp.push 2, ListOp.push 0, ListOp.push 2, ListOp.pop, ListOp.push 1] [2]
    rfl rfl (fun _ => rfl) rfl

/-! ### What each call leaves of the counters, in any state -/

theorem list_pop_sameButList (m m1 : Machine) (f : Int)
    (h : list_pop m = Outcome.ret (m1, f)) : SameButList m m1 := by
  unfold list_pop at h
  by_cases e : m.head = m.tail
  · rw [if_pos e] at h
    cases hh : m.head with
    | none => simp [hh] at h
    | some x =>
      simp only [hh, Outcome.ret.injEq, Prod.mk.injEq] at h
      obtain ⟨rfl, -⟩ := h
      refine ⟨rfl, rfl, rfl, rfl, rfl, rfl, fun g => ?_⟩
      by_cases e1 : g = x
      · subst e1; simp [frame_info.payload]
      · simp [Function.update_noteq e1]
  · rw [if_neg e] at h
    cases hh : m.head with
    | none =>
      cases ht : m.tail with
      | none => exact absurd (hh.trans ht.symm) e
      | some t => simp [hh, ht] at h
    | some x =>
      simp only [hh, Option.isSome_some, true_or, if_true, Function.update_same] at h
      cases hn : (m.frame_info x).next with
      | none => simp [hn] at h
      | some n =>
        simp only [hn, Outcome.ret.injEq, Prod.mk.injEq] at h
        obtain ⟨rfl, -⟩ := h
        refine ⟨rfl, rfl, rfl, rfl, rfl, rfl, fun g => ?_⟩
        by_cases e1 : g = n
        · subst e1
          by_cases e2 : g = x
          · subst e2; simp [frame_info.payload]
          · simp [frame_info.payload, Function.update_noteq e2]
        · by_cases e2 : g = x
          · subst e2; simp [frame_info.payload, Function.update_noteq e1]
          · simp [Function.update_noteq e1, Function.update_noteq e2]

theorem list_pop_no_exit (m : Machine) (c : Int) (s : String) (x : Machine) :
    list_pop m ≠ Outcome.exit c s x := by
  intro h
  by_cases e : m.head = m.tail
  · cases hh : m.head with
    | none => simp [list_pop, e.symm.trans hh, hh] at h
    | some a => simp [list_pop, e.symm.trans hh, hh] at h
  · cases hh : m.head with
    | none =>
      cases ht : m.tail with
      | none => exact e (hh.trans ht.symm)
      | some t => simp [list_pop, hh, ht] at h
    | some a =>
      cases hn : (m.frame_info a).next with
      | none =>
        cases ht : m.tail with
        | none => simp [list_pop, hh, ht, hn] at h
        | some t =>
          have : ¬ a = t := fun e2 => e (by rw [hh, ht, e2])
          simp [list_pop, hh, ht, hn, this] at h
      | some n =>
        cases ht : m.tail with
        | none => simp [list_pop, hh, ht, hn] at h
        | some t =>
          have : ¬ a = t := fun e2 => e (by rw [hh, ht, e2])
          simp [list_pop, hh, ht, hn, this] at h

theorem list_push_back_no_exit (m : Machine) (frame : Int) (c : Int) (s : String)
    (x : Machine) : list_push_back m frame ≠ Outcome.exit c s x := by
  intro h
  by_cases hv : m.valid frame
  · by_cases hc : (m.frame_info frame).cached = true
    · simp [list_push_back, hv, hc] at h
    · cases hh : m.head with
      | none => simp [list_push_back, hv, hc, hh] at h
      | some a =>
        cases ht : m.tail with
        | none => simp [list_push_back, hv, hc, hh, ht] at h
        | some t => simp [list_push_back, hv, hc, hh, ht] at h
  · simp [list_push_back, hv] at h

theorem flush_page_no_exit (m : Machine) (frame : Int) (c : Int) (s : String)
    (x : Machine) : flush_page m frame ≠ Outcome.exit c s x := by
  unfold flush_page
  split <;> simp

theorem flush_page_valid (m m1 : Machine) (frame : Int)
    (h : flush_page m frame = Outcome.ret m1) : m.valid frame := by
  by_contra hv
  simp [flush_page, hv] at h

theorem install_state (m m1 : Machine) (page new_frame : Int) (bit : Nat)
    (h : page_fault_handler.install m page new_frame bit = Outcome.ret m1) :
    m1.state = m.state := by
  unfold page_fault_handler.install at h
  by_cases hv : m.valid new_frame
  · have hv2 : (page_table_set_entry m page new_frame bit).valid new_frame := hv
    simp only [hv2, not_true_eq_false, if_false] at h
    by_cases hty : m.state.type = TYPE_FIFO
    · have hty2 : (page_table_set_entry m page new_frame bit).state.type = TYPE_FIFO := hty
      simp only [hty2, if_true] at h
      exact (list_push_back_sameButList _ _ _ h).1
    · have hty2 : ¬ (page_table_set_entry m page new_frame bit).state.type = TYPE_FIFO := hty
      simp only [hty2, if_false, Outcome.ret.injEq] at h
      subst h
      rfl
  · have hv2 : ¬ (page_table_set_entry m page new_frame bit).valid new_frame := hv
    simp [hv2] at h

theorem install_no_exit (m : Machine) (page new_frame : Int) (bit : Nat) (c : Int)
    (s : String) (x : Machine) :
    page_fault_handler.install m page new_frame bit ≠ Outcome.exit c s x := by
  unfold page_fault_handler.install
  simp only
  split
  · simp
  · split
    · exact list_push_back_no_exit _ _ _ _ _
    · simp

theorem loop_some (fi : Int → frame_info) (nframes : Int) :
    ∀ (fuel : Nat) (i k : Int), get_next_free_frame.loop fi nframes fuel i = some k →
      i ≤ k ∧ k < nframes ∧ (fi k).is_free = false ∧
      ∀ j, i ≤ j → j < k → (fi j).is_free = true
  | 0, i, k, h => by simp [get_next_free_frame.loop] at h
  | fuel + 1, i, k, h => by
    unfold get_next_free_frame.loop at h
    by_cases hin : i < nframes
    · rw [if_pos hin] at h
      by_cases hf : (fi i).is_free = false
      · rw [if_pos hf] at h
        cases h
        exact ⟨le_refl _, hin, hf, fun j h1 h2 => by omega⟩
      · rw [if_neg hf] at h
        obtain ⟨a, b, c, d⟩ := loop_some fi nframes fuel (i + 1) k h
        refine ⟨by omega, b, c, fun j h1 h2 => ?_⟩
        by_cases e : j = i
        · subst e; simpa using hf
        · exact d j (by omega) h2
    · rw [if_neg hin] at h
      cases h

theorem loop_none (fi : Int → frame_info) (nframes : Int) :
    ∀ (fuel : Nat) (i : Int), nframes - i ≤ fuel →
      (∀ j, i ≤ j → j < nframes → (fi j).is_free = true) →
      get_next_free_frame.loop fi nframes fuel i = none
  | 0, i, _, _ => rfl
  | fuel + 1, i, hfuel, hres => by
    unfold get_next_free_frame.loop
    by_cases hin : i < nframes
    · rw [if_pos hin, if_neg (by simp [hres i (le_refl _) hin])]
      exact loop_none fi nframes fuel (i + 1) (by push_cast at hfuel; omega)
        (fun j h1 h2 => hres j (by omega) h2)
    · rw [if_neg hin]

/-- The two ways `get_next_free_frame` ends: it hands out a frame whose `is_free` is clear,
adding one to `free_pages`, or it returns `UNKNOWN` and leaves the machine alone. -/
theorem get_next_free_frame_cases (m : Machine) (nframes : Int) :
    ((get_next_free_frame m nframes).2 = UNKNOWN ∧ (get_next_free_frame m nframes).1 = m) ∨
    ((get_next_free_frame m nframes).1 =
        { m with state := { m.state with free_pages := m.state.free_pages + 1 } } ∧
      m.state.free_pages < nframes ∧
      0 ≤ (get_next_free_frame m nframes).2 ∧ (get_next_free_frame m nframes).2 < nframes ∧
      (m.frame_info (get_next_free_frame m nframes).2).is_free = false ∧
      ∀ j, 0 ≤ j → j < (get_next_free_frame m nframes).2 → (m.frame_info j).is_free = true) := by
  unfold get_next_free_frame
  by_cases hge : m.state.free_pages ≥ nframes
  · left; simp [hge]
  · rw [if_neg hge]
    cases hl : get_next_free_frame.loop m.frame_info nframes nframes.toNat 0 with
    | none => left; simp
    | some k =>
      right
      obtain ⟨a, b, c, d⟩ := loop_some _ _ _ _ _ hl
      exact ⟨rfl, by omega, a, b, c, d⟩

theorem evict_ret (m m1 : Machine) (o : Option Int)
    (h : page_fault_handler.evict m = Outcome.ret (m1, o)) :
    m1.state.page_faults = m.state.page_faults ∧ m1.state.free_pages = m.state.free_pages ∧
    m1.state.type = m.state.type := by
  unfold page_fault_handler.evict at h
  by_cases hr : m.state.type = TYPE_RAND
  · rw [if_pos hr] at h
    by_cases hz : m.nframes = 0
    · simp [hz] at h
    · rw [if_neg hz] at h
      cases hfl : flush_page { m with rand_calls := m.rand_calls + 1 }
          (Int.tmod (m.rand m.rand_calls : Int) m.nframes) with
      | ret m2 =>
        simp only [hfl, Outcome.ret.injEq, Prod.mk.injEq] at h
        obtain ⟨rfl, -⟩ := h
        obtain ⟨m3, h3, -, -, -, -, -, -, f7, -, -⟩ := flush_page_eq _ _ (flush_page_valid _ _ _ hfl)
        rw [hfl] at h3; cases h3
        rw [f7]; exact ⟨rfl, rfl, rfl⟩
      | exit c s x => simp [hfl] at h
      | crash => simp [hfl] at h
  · rw [if_neg hr] at h
    by_cases hf : m.state.type = TYPE_FIFO
    · rw [if_pos hf] at h
      cases hp : list_pop m with
      | ret r =>
        obtain ⟨m2, nf⟩ := r
        have hs := list_pop_sameButList m m2 nf hp
        simp only [hp] at h
        by_cases hu : nf = UNKNOWN
        · simp only [hu, if_true, Outcome.ret.injEq, Prod.mk.injEq] at h
          obtain ⟨rfl, -⟩ := h
          rw [hs.1]; exact ⟨rfl, rfl, rfl⟩
        · rw [if_neg hu] at h
          cases hfl : flush_page m2 nf with
          | ret m3 =>
            simp only [hfl, Outcome.ret.injEq, Prod.mk.injEq] at h
            obtain ⟨rfl, -⟩ := h
            obtain ⟨m4, h4, -, -, -, -, -, -, f7, -, -⟩ :=
              flush_page_eq _ _ (flush_page_valid _ _ _ hfl)
            rw [hfl] at h4; cases h4
            rw [f7, hs.1]; exact ⟨rfl, rfl, rfl⟩
          | exit c s x => simp [hfl] at h
          | crash => simp [hfl] at h
      | exit c s x => simp [hp] at h
      | crash => simp [hp] at h
    · rw [if_neg hf] at h
      by_cases hc : m.state.type = TYPE_CUSTOM <;> simp [hc, die] at h

theorem evict_exit (m : Machine) (c : Int) (s : String) (x : Machine)
    (h : page_fault_handler.evict m = Outcome.exit c s x) :
    c = 254 ∧ x = m ∧ m.state.type ≠ TYPE_RAND ∧ m.state.type ≠ TYPE_FIFO := by
  unfold page_fault_handler.evict at h
  by_cases hr : m.state.type = TYPE_RAND
  · rw [if_pos hr] at h
    by_cases hz : m.nframes = 0
    · simp [hz] at h
    · rw [if_neg hz] at h
      cases hfl : flush_page { m with rand_calls := m.rand_calls + 1 }
          (Int.tmod (m.rand m.rand_calls : Int) m.nframes) with
      | ret m2 => simp [hfl] at h
      | exit c s x => exact absurd hfl (flush_page_no_exit _ _ _ _ _)
      | crash => simp [hfl] at h
  · rw [if_neg hr] at h
    by_cases hf : m.state.type = TYPE_FIFO
    · rw [if_pos hf] at h
      cases hp : list_pop m with
      | ret r =>
        obtain ⟨m2, nf⟩ := r
        simp only [hp] at h
        by_cases hu : nf = UNKNOWN
        · simp [hu] at h
        · rw [if_neg hu] at h
          cases hfl : flush_page m2 nf with
          | ret m3 => simp [hfl] at h
          | exit c s x => exact absurd hfl (flush_page_no_exit _ _ _ _ _)
          | crash => simp [hfl] at h
      | exit c s x => exact absurd hp (list_pop_no_exit _ _ _ _)
      | crash => simp [hp] at h
    · rw [if_neg hf] at h
      by_cases hc : m.state.type = TYPE_CUSTOM
      · simp only [hc, if_true, die, Outcome.exit.injEq] at h
        exact ⟨h.1.symm, h.2.2.symm, hr, hf⟩
      · simp only [hc, if_false, die, Outcome.exit.injEq] at h
        exact ⟨h.1.symm, h.2.2.symm, hr, hf⟩

/-- Whatever the state, a call of the handler that returns has added one to `page_faults` and
at most one to `free_pages`, and has kept the policy. -/
theorem handler_ret_counters (m m1 : Machine) (page : Int)
    (h : page_fault_handler m page = Outcome.ret m1) :
    m1.state.page_faults = m.state.page_faults + 1 ∧
    (m1.state.free_pages = m.state.free_pages ∨
      m1.state.free_pages = m.state.free_pages + 1) ∧
    m1.state.type = m.state.type := by
  unfold page_fault_handler at h
  simp only [page_table_get_entry] at h
  by_cases hbit : (m.entries page).2 = 0
  · simp only [hbit, if_true] at h
    rcases get_next_free_frame_cases
        { m with state := { m.state with page_faults := m.state.page_faults + 1 } }
        m.nframes with ⟨hu, hm⟩ | ⟨hm, -, h0, -, -, -⟩
    · simp only [hu, if_true, hm] at h
      cases hev : page_fault_handler.evict
          { m with state := { m.state with page_faults := m.state.page_faults + 1 } } with
      | ret r =>
        obtain ⟨m2, o⟩ := r
        obtain ⟨a, b, c⟩ := evict_ret _ _ _ hev
        simp only [hev] at h
        cases o with
        | none =>
          simp only [Outcome.ret.injEq] at h
          subst h
          exact ⟨a, Or.inl b, c⟩
        | some nf =>
          simp only at h
          have hs := install_state _ _ _ _ _ h
          rw [hs]
          exact ⟨a, Or.inl b, c⟩
      | exit c s x => simp [hev] at h
      | crash => simp [hev] at h
    · have hne : (get_next_free_frame
          { m with state := { m.state with page_faults := m.state.page_faults + 1 } }
          m.nframes).2 ≠ UNKNOWN := by unfold UNKNOWN; omega
      simp only [hne, if_false, hm] at h
      have hs := install_state _ _ _ _ _ h
      rw [hs]
      exact ⟨rfl, Or.inr rfl, rfl⟩
  · simp only [hbit, if_false] at h
    by_cases hx : (m.entries page).2 ^^^ PROT_WRITE ≠ 0
    · rw [if_pos hx] at h
      have hs := install_state _ _ _ _ _ h
      rw [hs]
      exact ⟨rfl, Or.inl rfl, rfl⟩
    · rw [if_neg hx] at h
      simp [die] at h

/-- Whatever the state, a call of the handler that ends in `die` exits with status 254 and
with the machine it started from, `page_faults` alone being one more. -/
theorem handler_exit_machine (m : Machine) (page : Int) (c : Int) (s : String) (x : Machine)
    (h : page_fault_handler m page = Outcome.exit c s x) :
    c = 254 ∧
    x = { m with state := { m.state with page_faults := m.state.page_faults + 1 } } := by
  unfold page_fault_handler at h
  simp only [page_table_get_entry] at h
  by_cases hbit : (m.entries page).2 = 0
  · simp only [hbit, if_true] at h
    rcases get_next_free_frame_cases
        { m with state := { m.state with page_faults := m.state.page_faults + 1 } }
        m.nframes with ⟨hu, hm⟩ | ⟨hm, -, h0, -, -, -⟩
    · simp only [hu, if_true, hm] at h
      cases hev : page_fault_handler.evict
          { m with state := { m.state with page_faults := m.state.page_faults + 1 } } with
      | ret r =>
        obtain ⟨m2, o⟩ := r
        simp only [hev] at h
        cases o with
        | none => simp at h
        | some nf => exact absurd h (install_no_exit _ _ _ _ _ _ _)
      | exit c1 s1 x1 =>
        obtain ⟨a, b, -, -⟩ := evict_exit _ _ _ _ hev
        simp only [hev, Outcome.exit.injEq] at h
        obtain ⟨rfl, -, rfl⟩ := h
        exact ⟨a, b⟩
      | crash => simp [hev] at h
    · have hne : (get_next_free_frame
          { m with state := { m.state with page_faults := m.state.page_faults + 1 } }
          m.nframes).2 ≠ UNKNOWN := by unfold UNKNOWN; omega
      simp only [hne, if_false, hm] at h
      exact absurd h (install_no_exit _ _ _ _ _ _ _)
  · simp only [hbit, if_false] at h
    by_cases hx : (m.entries page).2 ^^^ PROT_WRITE ≠ 0
    · rw [if_pos hx] at h
      exact absurd h (install_no_exit _ _ _ _ _ _ _)
    · rw [if_neg hx] at h
      simp only [die, Outcome.exit.injEq] at h
      exact ⟨h.1.symm, h.2.2.symm⟩

/-! ### Every state a run reaches -/

theorem run_keeps_inv :
    ∀ (t : List Int) (m m1 : Machine), Inv m → run m t = Outcome.ret m1 →
      Inv m1 ∧ m1.nframes = m.nframes ∧ m1.state.type = m.state.type
  | [], m, m1, h, hrun => by
    simp only [run, Outcome.ret.injEq] at hrun
    subst hrun
    exact ⟨h, rfl, rfl⟩
  | page :: rest, m, m1, h, hrun => by
    cases hh : page_fault_handler m page with
    | ret m2 =>
      simp only [run, hh] at hrun
      obtain ⟨hi, hn, ht⟩ := h.step page hh
      obtain ⟨hi2, hn2, ht2⟩ := run_keeps_inv rest m2 m1 hi hrun
      exact ⟨hi2, hn2.trans hn, ht2.trans ht⟩
    | exit c s x => simp [run, hh] at hrun
    | crash => simp [run, hh] at hrun

theorem evict_negative (m : Machine) (hneg : m.nframes < 0) (hh : m.head = none)
    (ht : m.tail = none) (r : Machine × Option Int) :
    page_fault_handler.evict m ≠ Outcome.ret r := by
  intro h
  unfold page_fault_handler.evict at h
  by_cases hr : m.state.type = TYPE_RAND
  · have hz : m.nframes ≠ 0 := by omega
    rw [if_pos hr, if_neg hz] at h
    have hfl : flush_page { m with rand_calls := m.rand_calls + 1 }
        (Int.tmod (m.rand m.rand_calls : Int) m.nframes) = Outcome.crash := by
      have hv : ¬ ({ m with rand_calls := m.rand_calls + 1 } : Machine).valid
          (Int.tmod (m.rand m.rand_calls : Int) m.nframes) := by
        intro hv
        have h1 := hv.1
        have h2 : Int.tmod (m.rand m.rand_calls : Int) m.nframes < m.nframes := hv.2
        omega
      simp [flush_page, hv]
    simp [hfl] at h
  · rw [if_neg hr] at h
    by_cases hf : m.state.type = TYPE_FIFO
    · rw [if_pos hf] at h
      have hp : list_pop m = Outcome.crash := by simp [list_pop, hh, ht]
      simp [hp] at h
    · rw [if_neg hf] at h
      by_cases hc : m.state.type = TYPE_CUSTOM <;> simp [hc, die] at h

/-- With a negative frame count no call of the handler returns from the initial state. -/
theorem initial_negative_stuck (type nframes : Int) (mapping : Int → Int) (rand : Nat → Nat)
    (hneg : nframes < 0) (page : Int) (m1 : Machine) :
    page_fault_handler (initial type nframes mapping rand) page ≠ Outcome.ret m1 := by
  intro h
  unfold page_fault_handler at h
  have hg := get_next_free_frame_full
    { initial type nframes mapping rand with
      state := { (initial type nframes mapping rand).state with
        page_faults := (initial type nframes mapping rand).state.page_faults + 1 } }
    (by show nframes ≤ 0; omega)
  have hbit : ((initial type nframes mapping rand).entries page).2 = 0 := rfl
  simp only [page_table_get_entry, hbit, if_true, hg] at h
  cases hev : page_fault_handler.evict
      { initial type nframes mapping rand with
        state := { (initial type nframes mapping rand).state with
          page_faults := (initial type nframes mapping rand).state.page_faults + 1 } } with
  | ret r => exact evict_negative _ hneg rfl rfl r hev
  | exit c s x => simp [hev] at h
  | crash => simp [hev] at h

theorem run_initial_negative (type nframes : Int) (mapping : Int → Int) (rand : Nat → Nat)
    (hneg : nframes < 0) (t : List Int) (m : Machine)
    (hrun : run (initial type nframes mapping rand) t = Outcome.ret m) :
    m = initial type nframes mapping rand := by
  cases t with
  | nil =>
    simp only [run, Outcome.ret.injEq] at hrun
    exact hrun.symm
  | cons page rest =>
    cases hh : page_fault_handler (initial type nframes mapping rand) page with
    | ret m2 => exact absurd hh (initial_negative_stuck type nframes mapping rand hneg page m2)
    | exit c s x => simp [run, hh] at hrun
    | crash => simp [run, hh] at hrun

/-- Claim C12: in every state reached from the initial state by completed invocations of the
handler (any policy, any frame count), for every frame, `dirty` set implies `bits` ReadWrite,
and `bits` ReadWrite implies the frame is resident (`is_free` non-zero).  The first holds
because no frame ever has `dirty` set. -/
theorem dirty_writable_resident (type nframes : Int) (mapping : Int → Int) (rand : Nat → Nat)
    (t : List Int) (m : Machine) (f : Int)
    (hrun : run (initial type nframes mapping rand) t = Outcome.ret m) :
    (m.frame_info f).dirty = false ∧
    ((m.frame_info f).dirty = true → (m.frame_info f).bits = PROT_READ ||| PROT_WRITE) ∧
    ((m.frame_info f).bits = PROT_READ ||| PROT_WRITE → (m.frame_info f).is_free = true) := by
  by_cases hn : 0 ≤ nframes
  · obtain ⟨hi, -, -⟩ := run_keeps_inv t _ m (initial_inv type nframes mapping rand hn) hrun
    refine ⟨hi.dirty_clear f, fun hd => ?_, fun hb => ?_⟩
    · rw [hi.dirty_clear f] at hd; cases hd
    · by_contra hfree
      have := hi.vacant_bits f (fun hres => hfree ((hi.resident_iff f).mpr hres))
      rw [this] at hb
      exact absurd hb (by decide)
  · have := run_initial_negative type nframes mapping rand (by omega) t m hrun
    subst this
    refine ⟨rfl, fun hd => ?_, fun hb => ?_⟩
    · cases hd
    · have h0 : ((initial type nframes mapping rand).frame_info f).bits = 0 := rfl
      rw [h0] at hb
      exact absurd hb (by decide)

theorem dirty_writable_resident_witness :
    (((run (initial TYPE_RAND 2 (fun _ => 0) (fun _ => 1)) [3, 4, 3, 5]).getD
        (initial TYPE_RAND 2 (fun _ => 0) (fun _ => 1))).frame_info 0).dirty = false ∧
    ((((run (initial TYPE_RAND 2 (fun _ => 0) (fun _ => 1)) [3, 4, 3, 5]).getD
        (initial TYPE_RAND 2 (fun _ => 0) (fun _ => 1))).frame_info 0).dirty = true →
      (((run (initial TYPE_RAND 2 (fun _ => 0) (fun _ => 1)) [3, 4, 3, 5]).getD
        (initial TYPE_RAND 2 (fun _ => 0) (fun _ => 1))).frame_info 0).bits
        = PROT_READ ||| PROT_WRITE) ∧
    ((((run (initial TYPE_RAND 2 (fun _ => 0) (fun _ => 1)) [3, 4, 3, 5]).getD
        (initial TYPE_RAND 2 (fun _ => 0) (fun _ => 1))).frame_info 0).bits
        = PROT_READ ||| PROT_WRITE →
      (((run (initial TYPE_RAND 2 (fun _ => 0) (fun _ => 1)) [3, 4, 3, 5]).getD
        (initial TYPE_RAND 2 (fun _ => 0) (fun _ => 1))).frame_info 0).is_free = true) :=
  dirty_writable_resident TYPE_RAND 2 (fun _ => 0) (fun _ => 1) [3, 4, 3, 5] _ 0 rfl

/-! ### `get_next_free_frame` -/

/-- Claim C13 fails on the code: from the initial state with two frames,
`get_next_free_frame(2)` returns frame 0 and makes `free_pages` 1, but `frame_info[0].is_free`
is still clear afterwards: the function does not mark the frame. -/
theorem get_next_free_frame_leaves_frame_unmarked :
    (get_next_free_frame (initial TYPE_FIFO 2 (fun _ => 0) (fun _ => 0)) 2).2 = 0 ∧
    (get_next_free_frame (initial TYPE_FIFO 2 (fun _ => 0) (fun _ => 0)) 2).1.state.free_pages
      = 1 ∧
    ((get_next_free_frame (initial TYPE_FIFO 2 (fun _ => 0) (fun _ => 0)) 2).1.frame_info 0).is_free
      = false := by
  decide

/-- Claim C13, as amended: when `free_pages < nframes` and `i` is the lowest index in
`[0, nframes)` whose frame is not resident (`is_free == 0`), `get_next_free_frame(nframes)`
returns `i` and adds exactly one to `free_pages`; when `free_pages >= nframes` it returns
`UNKNOWN` and changes nothing; in no case does it write `frame_info` (the frame is marked
resident by the handler afterwards). -/
theorem get_next_free_frame_contract (m : Machine) (nframes i : Int) :
    (m.state.free_pages < nframes → 0 ≤ i → i < nframes →
      (m.frame_info i).is_free = false →
      (∀ j, 0 ≤ j → j < i → (m.frame_info j).is_free = true) →
      get_next_free_frame m nframes =
        ({ m with state := { m.state with free_pages := m.state.free_pages + 1 } }, i)) ∧
    (nframes ≤ m.state.free_pages → get_next_free_frame m nframes = (m, UNKNOWN)) ∧
    (get_next_free_frame m nframes).1.frame_info = m.frame_info := by
  refine ⟨fun hlt h0 h1 hfree hres => ?_, fun hge => ?_, ?_⟩
  · have := loop_finds m.frame_info nframes i h1 hfree nframes.toNat 0 h0
      (by have := Int.toNat_of_nonneg (show 0 ≤ nframes by omega); omega) hres
    simp [get_next_free_frame, not_le.mpr hlt, this]
  · simp [get_next_free_frame, hge]
  · rcases get_next_free_frame_cases m nframes with ⟨-, h⟩ | ⟨h, -⟩ <;> rw [h]

theorem get_next_free_frame_contract_witness :
    get_next_free_frame
        ((run (initial TYPE_FIFO 3 (fun _ => 0) (fun _ => 0)) [5]).getD
          (initial TYPE_FIFO 3 (fun _ => 0) (fun _ => 0))) 3
      = ({ ((run (initial TYPE_FIFO 3 (fun _ => 0) (fun _ => 0)) [5]).getD
            (initial TYPE_FIFO 3 (fun _ => 0) (fun _ => 0))) with
           state := { ((run (initial TYPE_FIFO 3 (fun _ => 0) (fun _ => 0)) [5]).getD
              (initial TYPE_FIFO 3 (fun _ => 0) (fun _ => 0))).state with
             free_pages := 1 + 1 } }, 1) :=
  (get_next_free_frame_contract
    ((run (initial TYPE_FIFO 3 (fun _ => 0) (fun _ => 0)) [5]).getD
      (initial TYPE_FIFO 3 (fun _ => 0) (fun _ => 0))) 3 1).1
    (by decide) (by decide) (by decide) (by decide)
    (by
      intro j h0 h1
      have : j = 0 := by omega
      subst this
      decide)

/-! ### Counters and fatal paths of the handler -/

/-- Claim C14: for `nframes ≥ 0`, in every state `m0` reached from the initial state by
completed invocations, `0 ≤ free_pages ≤ nframes`; a further invocation that returns leaves
`free_pages` no smaller and again within `0 .. nframes`, and one that ends in `die` leaves
it as it was. -/
theorem free_pages_monotone_and_bounded (type nframes : Int) (mapping : Int → Int)
    (rand : Nat → Nat) (pre : List Int) (m0 : Machine) (page : Int)
    (hframes : 0 ≤ nframes)
    (hrun : run (initial type nframes mapping rand) pre = Outcome.ret m0) :
    0 ≤ m0.state.free_pages ∧ m0.state.free_pages ≤ nframes ∧
    (∀ m1, page_fault_handler m0 page = Outcome.ret m1 →
      m0.state.free_pages ≤ m1.state.free_pages ∧
      0 ≤ m1.state.free_pages ∧ m1.state.free_pages ≤ nframes) ∧
    (∀ c s x, page_fault_handler m0 page = Outcome.exit c s x →
      x.state.free_pages = m0.state.free_pages) := by
  obtain ⟨hi, hn, -⟩ := run_keeps_inv pre _ m0 (initial_inv type nframes mapping rand hframes) hrun
  have hn0 : m0.nframes = nframes := hn
  refine ⟨hi.free_lo, by rw [← hn0]; exact hi.free_hi, fun m1 h1 => ?_, fun c s x hx => ?_⟩
  · obtain ⟨hi1, hn1, -⟩ := hi.step page h1
    obtain ⟨-, hfp, -⟩ := handler_ret_counters m0 m1 page h1
    refine ⟨by omega, hi1.free_lo, ?_⟩
    have := hi1.free_hi
    rw [hn1, hn0] at this
    exact this
  · obtain ⟨-, rfl⟩ := handler_exit_machine m0 page c s x hx
    rfl

theorem free_pages_monotone_and_bounded_witness :
    0 ≤ ((run (initial TYPE_FIFO 2 (fun _ => 0) (fun _ => 0)) [0, 1, 2]).getD
          (initial TYPE_FIFO 2 (fun _ => 0) (fun _ => 0))).state.free_pages ∧
    ((run (initial TYPE_FIFO 2 (fun _ => 0) (fun _ => 0)) [0, 1, 2]).getD
          (initial TYPE_FIFO 2 (fun _ => 0) (fun _ => 0))).state.free_pages ≤ 2 ∧
    (∀ m1, page_fault_handler ((run (initial TYPE_FIFO 2 (fun _ => 0) (fun _ => 0)) [0, 1, 2]).getD
          (initial TYPE_FIFO 2 (fun _ => 0) (fun _ => 0))) 7 = Outcome.ret m1 →
      ((run (initial TYPE_FIFO 2 (fun _ => 0) (fun _ => 0)) [0, 1, 2]).getD
          (initial TYPE_FIFO 2 (fun _ => 0) (fun _ => 0))).state.free_pages
        ≤ m1.state.free_pages ∧
      0 ≤ m1.state.free_pages ∧ m1.state.free_pages ≤ 2) ∧
    (∀ c s x, page_fault_handler ((run (initial TYPE_FIFO 2 (fun _ => 0) (fun _ => 0)) [0, 1, 2]).getD
          (initial TYPE_FIFO 2 (fun _ => 0) (fun _ => 0))) 7 = Outcome.exit c s x →
      x.state.free_pages = ((run (initial TYPE_FIFO 2 (fun _ => 0) (fun _ => 0)) [0, 1, 2]).getD
          (initial TYPE_FIFO 2 (fun _ => 0) (fun _ => 0))).state.free_pages) :=
  free_pages_monotone_and_bounded TYPE_FIFO 2 (fun _ => 0) (fun _ => 0) [0, 1, 2] _ 7
    (by decide) rfl

theorem get_next_free_frame_faults (m : Machine) (nframes k : Int) :
    (get_next_free_frame { m with state := { m.state with page_faults := k } } nframes).2
      = (get_next_free_frame m nframes).2 := by
  unfold get_next_free_frame
  by_cases hge : m.state.free_pages ≥ nframes
  · simp [hge]
  · simp only [hge, if_false]
    cases get_next_free_frame.loop m.frame_info nframes nframes.toNat 0 <;> rfl

/-- Claim C16: when a first-touch fault finds no free frame (`get_next_free_frame` returns
`UNKNOWN`) and the policy is neither Random nor FIFO, the handler ends in `die`, exit status
254, with "Not implemented" for the custom policy and "Unknown handler type" for any other
value; the machine at exit is the one the handler was called on but for `page_faults`: no
victim was chosen, no collaborator was called, no entry, frame record or disk counter
changed. -/
theorem no_policy_fails_fast (m : Machine) (page : Int)
    (hbit : (m.entries page).2 = PROT_NONE)
    (hnone : (get_next_free_frame m m.nframes).2 = UNKNOWN)
    (hrand : m.state.type ≠ TYPE_RAND) (hfifo : m.state.type ≠ TYPE_FIFO) :
    page_fault_handler m page =
      Outcome.exit 254
        (if m.state.type = TYPE_CUSTOM then "Not implemented" else "Unknown handler type")
        { m with state := { m.state with page_faults := m.state.page_faults + 1 } } := by
  have hu := (get_next_free_frame_faults m m.nframes (m.state.page_faults + 1)).trans hnone
  have hm : (get_next_free_frame
      { m with state := { m.state with page_faults := m.state.page_faults + 1 } } m.nframes).1
      = { m with state := { m.state with page_faults := m.state.page_faults + 1 } } := by
    rcases get_next_free_frame_cases
        { m with state := { m.state with page_faults := m.state.page_faults + 1 } }
        m.nframes with ⟨-, h⟩ | ⟨-, -, h0, -, -, -⟩
    · exact h
    · rw [hu] at h0; exact absurd h0 (by decide)
  have hev : page_fault_handler.evict
      { m with state := { m.state with page_faults := m.state.page_faults + 1 } } =
      Outcome.exit 254
        (if m.state.type = TYPE_CUSTOM then "Not implemented" else "Unknown handler type")
        { m with state := { m.state with page_faults := m.state.page_faults + 1 } } := by
    unfold page_fault_handler.evict
    rw [if_neg hrand, if_neg hfifo]
    by_cases hc : m.state.type = TYPE_CUSTOM
    · rw [if_pos hc, if_pos hc]; rfl
    · rw [if_neg hc, if_neg hc]; rfl
  have hbit0 : (m.entries page).2 = 0 := hbit
  unfold page_fault_handler
  simp only [page_table_get_entry, hbit0, if_true, hu, hm, hev]

theorem no_policy_fails_fast_witness :
    page_fault_handler
        ((run (initial TYPE_CUSTOM 1 (fun _ => 0) (fun _ => 0)) [6]).getD
          (initial TYPE_CUSTOM 1 (fun _ => 0) (fun _ => 0))) 8 =
      Outcome.exit 254
        (if ((run (initial TYPE_CUSTOM 1 (fun _ => 0) (fun _ => 0)) [6]).getD
          (initial TYPE_CUSTOM 1 (fun _ => 0) (fun _ => 0))).state.type = TYPE_CUSTOM
          then "Not implemented" else "Unknown handler type")
        { ((run (initial TYPE_CUSTOM 1 (fun _ => 0) (fun _ => 0)) [6]).getD
            (initial TYPE_CUSTOM 1 (fun _ => 0) (fun _ => 0))) with
          state := { ((run (initial TYPE_CUSTOM 1 (fun _ => 0) (fun _ => 0)) [6]).getD
              (initial TYPE_CUSTOM 1 (fun _ => 0) (fun _ => 0))).state with
            page_faults := 1 + 1 } } :=
  no_policy_fails_fast
    ((run (initial TYPE_CUSTOM 1 (fun _ => 0) (fun _ => 0)) [6]).getD
      (initial TYPE_CUSTOM 1 (fun _ => 0) (fun _ => 0))) 8
    (by decide) (by decide) (by decide) (by decide)

/-! ### Eviction in reachable states -/

/-- In a state satisfying the invariant, `get_next_free_frame` returns `UNKNOWN` only when
every frame has been handed out. -/
theorem Inv.full_of_unknown {m : Machine} (h : Inv m)
    (hnone : (get_next_free_frame m m.nframes).2 = UNKNOWN) :
    m.state.free_pages = m.nframes := by
  by_contra hne
  have hlt : m.state.free_pages < m.nframes := lt_of_le_of_ne h.free_hi hne
  have hfree : (m.frame_info m.state.free_pages).is_free = false := by
    have := (h.resident_iff m.state.free_pages).not.mpr (by omega)
    simpa using this
  have := get_next_free_frame_free m hlt h.free_lo
    (fun f h0 h1 => (h.resident_iff f).mpr ⟨h0, h1⟩) hfree
  rw [this] at hnone
  have h0 := h.free_lo
  simp only [UNKNOWN] at hnone
  omega

/-- Claim C17: under the Random policy with at least one frame, every run from the initial
state returns, and in the state reached, if a first-touch fault requires eviction
(`get_next_free_frame` returns `UNKNOWN`) then every frame in `[0, nframes)` is resident, and
for every value `r ≥ 0` of the generator the victim `r % nframes` is an index in
`[0, nframes)` of a resident frame. -/
theorem random_victim_is_resident (nframes : Int) (mapping : Int → Int) (rand : Nat → Nat)
    (t : List Int) (hframes : 1 ≤ nframes) :
    ∃ m, run (initial TYPE_RAND nframes mapping rand) t = Outcome.ret m ∧
      ((get_next_free_frame m m.nframes).2 = UNKNOWN →
        (∀ f, 0 ≤ f → f < nframes → (m.frame_info f).is_free = true) ∧
        ∀ r : Nat, 0 ≤ Int.tmod (r : Int) nframes ∧ Int.tmod (r : Int) nframes < nframes ∧
          (m.frame_info (Int.tmod (r : Int) nframes)).is_free = true) := by
  obtain ⟨m, h1, hi, hn, -⟩ := run_inv t (initial TYPE_RAND nframes mapping rand)
    (initial_inv TYPE_RAND nframes mapping rand (by omega)) (Or.inl rfl)
    (by show 0 < nframes; omega)
  have hn0 : m.nframes = nframes := hn
  refine ⟨m, h1, fun hnone => ?_⟩
  have hfull := hi.full_of_unknown hnone
  rw [hn0] at hfull
  have hall : ∀ f, 0 ≤ f → f < nframes → (m.frame_info f).is_free = true :=
    fun f h0 h1 => (hi.resident_iff f).mpr ⟨h0, by rw [hfull]; exact h1⟩
  refine ⟨hall, fun r => ?_⟩
  have h0 : 0 ≤ Int.tmod (r : Int) nframes := Int.tmod_nonneg _ (Int.ofNat_nonneg _)
  have h1 : Int.tmod (r : Int) nframes < nframes := Int.tmod_lt_of_pos _ (by omega)
  exact ⟨h0, h1, hall _ h0 h1⟩

theorem random_victim_is_resident_witness :
    ∃ m, run (initial TYPE_RAND 2 (fun _ => 0) (fun _ => 3)) [0, 1, 0, 2] = Outcome.ret m ∧
      ((get_next_free_frame m m.nframes).2 = UNKNOWN →
        (∀ f, 0 ≤ f → f < 2 → (m.frame_info f).is_free = true) ∧
        ∀ r : Nat, 0 ≤ Int.tmod (r : Int) 2 ∧ Int.tmod (r : Int) 2 < 2 ∧
          (m.frame_info (Int.tmod (r : Int) 2)).is_free = true) :=
  random_victim_is_resident 2 (fun _ => 0) (fun _ => 3) [0, 1, 0, 2] (by decide)

theorem evict_fifo_some (m : Machine) (x : Int) (xs : List Int)
    (hty : m.state.type = TYPE_FIFO) (hq : Represents m (x :: xs)) :
    ∃ m3, page_fault_handler.evict m = Outcome.ret (m3, some x) := by
  have hx : m.valid x := hq.valid x (List.mem_cons_self _ _)
  obtain ⟨m2, h2, -, hs2⟩ := list_pop_represents m x xs hq
  have hv2 : m2.valid x := by
    unfold Machine.valid at hx ⊢
    rw [hs2.2.2.2.1]; exact hx
  obtain ⟨m3, h3, -⟩ := flush_page_eq m2 x hv2
  have hxu : x ≠ UNKNOWN := by
    have := hx.1
    unfold UNKNOWN; omega
  have hne : ¬ (m.state.type = TYPE_RAND) := by rw [hty]; decide
  refine ⟨m3, ?_⟩
  unfold page_fault_handler.evict
  rw [if_neg hne, if_pos hty, h2]
  simp only [hxu, if_false, h3]

/-- Claim C18: under FIFO with at least one frame, every run from the initial state returns,
and in the state reached the chain of the list holds each resident frame exactly once and
nothing else, so its length is `free_pages`; whenever eviction is required
(`get_next_free_frame` returns `UNKNOWN`) the chain has exactly `nframes` elements,
`list_pop` returns a frame index and not `UNKNOWN`, and the victim selection the handler
then makes (on the machine with `page_faults` already incremented) yields a victim, so the
early `return` is not taken. -/
theorem fifo_queue_is_resident_frames (nframes : Int) (mapping : Int → Int) (rand : Nat → Nat)
    (t : List Int) (hframes : 1 ≤ nframes) :
    ∃ m, run (initial TYPE_FIFO nframes mapping rand) t = Outcome.ret m ∧
      m.chain.Nodup ∧
      (∀ f, f ∈ m.chain ↔ (m.frame_info f).is_free = true) ∧
      (m.chain.length : Int) = m.state.free_pages ∧
      ((get_next_free_frame m m.nframes).2 = UNKNOWN →
        (m.chain.length : Int) = nframes ∧
        (∃ m2 v, list_pop m = Outcome.ret (m2, v) ∧ v ≠ UNKNOWN) ∧
        ∃ m3 v, page_fault_handler.evict
          { m with state := { m.state with page_faults := m.state.page_faults + 1 } }
            = Outcome.ret (m3, some v)) := by
  obtain ⟨m, h1, hi, hn, hty⟩ := run_inv t (initial TYPE_FIFO nframes mapping rand)
    (initial_inv TYPE_FIFO nframes mapping rand (by omega)) (Or.inr rfl)
    (by show 0 < nframes; omega)
  have hn0 : m.nframes = nframes := hn
  have hty0 : m.state.type = TYPE_FIFO := hty
  obtain ⟨q, hq, hmem⟩ := hi.queue hty0
  have hlen : (q.length : Int) = m.state.free_pages := by
    have hperm : q.Perm (frames_upto m.state.free_pages.toNat) := by
      rw [List.perm_ext_iff_of_nodup hq.nodup (frames_upto_nodup _)]
      intro f
      rw [hmem, mem_frames_upto]
      have := hi.free_lo
      omega
    have := hperm.length_eq
    rw [frames_upto_length] at this
    rw [this]
    exact Int.toNat_of_nonneg hi.free_lo
  refine ⟨m, h1, ?_⟩
  rw [hq.chain_eq]
  refine ⟨hq.nodup, fun f => ?_, hlen, fun hnone => ?_⟩
  · rw [hmem, hi.resident_iff]
  · have hfull := hi.full_of_unknown hnone
    rw [hn0] at hfull
    cases q with
    | nil =>
      simp at hlen
      omega
    | cons x xs =>
      obtain ⟨m2, h2, -, -⟩ := list_pop_represents m x xs hq
      obtain ⟨m3, h3⟩ := evict_fifo_some
        { m with state := { m.state with page_faults := m.state.page_faults + 1 } } x xs hty0
        (hq.congr rfl rfl rfl (fun _ => rfl) (fun _ => rfl))
      have hx := (hq.valid x (List.mem_cons_self _ _)).1
      refine ⟨by rw [hlen, hfull], ⟨m2, x, h2, ?_⟩, ⟨m3, x, h3⟩⟩
      unfold UNKNOWN; omega

theorem fifo_queue_is_resident_frames_witness :
    ∃ m, run (initial TYPE_FIFO 2 (fun _ => 0) (fun _ => 0)) [0, 1, 0, 2] = Outcome.ret m ∧
      m.chain.Nodup ∧
      (∀ f, f ∈ m.chain ↔ (m.frame_info f).is_free = true) ∧
      (m.chain.length : Int) = m.state.free_pages ∧
      ((get_next_free_frame m m.nframes).2 = UNKNOWN →
        (m.chain.length : Int) = 2 ∧
        (∃ m2 v, list_pop m = Outcome.ret (m2, v) ∧ v ≠ UNKNOWN) ∧
        ∃ m3 v, page_fault_handler.evict
          { m with state := { m.state with page_faults := m.state.page_faults + 1 } }
            = Outcome.ret (m3, some v)) :=
  fifo_queue_is_resident_frames 2 (fun _ => 0) (fun _ => 0) [0, 1, 0, 2] (by decide)

/-! ### Page table against frame records, and the counters -/

/-- Claim C19: under the Random or FIFO policy with at least one frame, every run from the
initial state returns, and in the state reached every page whose entry has bits other than
`PROT_NONE` maps to a frame `f` in `[0, nframes)` whose record has that page as `page_num`
and the entry's bits as `bits`; two mapped pages never share a frame; and any collection of
distinct mapped pages has at most `nframes` members. -/
theorem table_and_frames_agree (type nframes : Int) (mapping : Int → Int) (rand : Nat → Nat)
    (t : List Int) (htype : type = TYPE_RAND ∨ type = TYPE_FIFO) (hframes : 1 ≤ nframes) :
    ∃ m, run (initial type nframes mapping rand) t = Outcome.ret m ∧
      (∀ p, (m.entries p).2 ≠ PROT_NONE →
        0 ≤ (m.entries p).1 ∧ (m.entries p).1 < nframes ∧
        (m.frame_info (m.entries p).1).page_num = p ∧
        (m.frame_info (m.entries p).1).bits = (m.entries p).2) ∧
      (∀ p1 p2, (m.entries p1).2 ≠ PROT_NONE → (m.entries p2).2 ≠ PROT_NONE →
        (m.entries p1).1 = (m.entries p2).1 → p1 = p2) ∧
      (∀ ps : List Int, ps.Nodup → (∀ p ∈ ps, (m.entries p).2 ≠ PROT_NONE) →
        (ps.length : Int) ≤ nframes) := by
  obtain ⟨m, h1, hi, hn, -⟩ := run_inv t (initial type nframes mapping rand)
    (initial_inv type nframes mapping rand (by omega)) htype (by show 0 < nframes; omega)
  have hn0 : m.nframes = nframes := hn
  have hfi := hi.free_hi
  rw [hn0] at hfi
  have hinj : ∀ p1 p2, (m.entries p1).2 ≠ PROT_NONE → (m.entries p2).2 ≠ PROT_NONE →
      (m.entries p1).1 = (m.entries p2).1 → p1 = p2 := by
    intro p1 p2 hp1 hp2 he
    obtain ⟨-, -, c1⟩ := hi.entry_frame p1 hp1
    obtain ⟨-, -, c2⟩ := hi.entry_frame p2 hp2
    rw [← c1, ← c2, he]
  refine ⟨m, h1, fun p hp => ?_, hinj, fun ps hnd hps => ?_⟩
  · obtain ⟨c1, c2, c3⟩ := hi.entry_frame p hp
    obtain ⟨b1, -⟩ := hi.frame_entry _ c1 c2
    rw [c3] at b1
    refine ⟨c1, by omega, c3, ?_⟩
    exact (congrArg Prod.snd b1).symm
  · have hnd2 : (ps.map fun p => (m.entries p).1).Nodup :=
      hnd.map_on fun x hx y hy he => hinj x y (hps x hx) (hps y hy) he
    have hle := length_le_of_frames _ nframes hnd2 (by
      intro f hf
      rw [List.mem_map] at hf
      obtain ⟨p, hp, rfl⟩ := hf
      obtain ⟨c1, c2, -⟩ := hi.entry_frame p (hps p hp)
      exact ⟨c1, by omega⟩)
    rw [List.length_map] at hle
    omega

theorem table_and_frames_agree_witness :
    ∃ m, run (initial TYPE_RAND 2 (fun _ => 0) (fun _ => 3)) [0, 1, 0, 2, 1] = Outcome.ret m ∧
      (∀ p, (m.entries p).2 ≠ PROT_NONE →
        0 ≤ (m.entries p).1 ∧ (m.entries p).1 < 2 ∧
        (m.frame_info (m.entries p).1).page_num = p ∧
        (m.frame_info (m.entries p).1).bits = (m.entries p).2) ∧
      (∀ p1 p2, (m.entries p1).2 ≠ PROT_NONE → (m.entries p2).2 ≠ PROT_NONE →
        (m.entries p1).1 = (m.entries p2).1 → p1 = p2) ∧
      (∀ ps : List Int, ps.Nodup → (∀ p ∈ ps, (m.entries p).2 ≠ PROT_NONE) →
        (ps.length : Int) ≤ 2) :=
  table_and_frames_agree TYPE_RAND 2 (fun _ => 0) (fun _ => 3) [0, 1, 0, 2, 1]
    (Or.inl rfl) (by decide)

/-- Claim C20: under the Random or FIFO policy with at least one frame, every run from the
initial state returns, and in the state reached `disk_reads = free_pages + invalidatings` and
`disk_writes ≤ invalidatings ≤ disk_reads ≤ page_faults`; a further first-touch fault that
returns either consumes one free frame (and revokes nothing) or performs exactly one
eviction (and consumes no frame), with one more `disk_reads` either way. -/
theorem counters_are_related (type nframes : Int) (mapping : Int → Int) (rand : Nat → Nat)
    (t : List Int) (htype : type = TYPE_RAND ∨ type = TYPE_FIFO) (hframes : 1 ≤ nframes) :
    ∃ m, run (initial type nframes mapping rand) t = Outcome.ret m ∧
      m.state.disk_reads = m.state.free_pages + m.state.invalidatings ∧
      m.state.disk_writes ≤ m.state.invalidatings ∧
      m.state.invalidatings ≤ m.state.disk_reads ∧
      m.state.disk_reads ≤ m.state.page_faults ∧
      ∀ page m1, (m.entries page).2 = PROT_NONE → page_fault_handler m page = Outcome.ret m1 →
        m1.state.disk_reads = m.state.disk_reads + 1 ∧
        ((m1.state.free_pages = m.state.free_pages + 1 ∧
            m1.state.invalidatings = m.state.invalidatings) ∨
          (m1.state.free_pages = m.state.free_pages ∧
            m1.state.invalidatings = m.state.invalidatings + 1)) := by
  obtain ⟨m, h1, hi, -, -⟩ := run_inv t (initial type nframes mapping rand)
    (initial_inv type nframes mapping rand (by omega)) htype (by show 0 < nframes; omega)
  refine ⟨m, h1, hi.reads, hi.writes_hi, ?_, hi.faults, fun page m1 hbit hret => ?_⟩
  · have := hi.reads
    have := hi.free_lo
    omega
  · rcases hi.step_cases page hret with ⟨-, -, hl⟩ | ⟨hne, -⟩ | ⟨-, -, v, he⟩
    · rw [hl.state]
      exact ⟨rfl, Or.inl ⟨rfl, rfl⟩⟩
    · exact absurd hbit hne
    · rw [he.state]
      exact ⟨rfl, Or.inr ⟨rfl, rfl⟩⟩

theorem counters_are_related_witness :
    ∃ m, run (initial TYPE_FIFO 2 (fun _ => 0) (fun _ => 0)) [0, 1, 0, 2, 0] = Outcome.ret m ∧
      m.state.disk_reads = m.state.free_pages + m.state.invalidatings ∧
      m.state.disk_writes ≤ m.state.invalidatings ∧
      m.state.invalidatings ≤ m.state.disk_reads ∧
      m.state.disk_reads ≤ m.state.page_faults ∧
      ∀ page m1, (m.entries page).2 = PROT_NONE → page_fault_handler m page = Outcome.ret m1 →
        m1.state.disk_reads = m.state.disk_reads + 1 ∧
        ((m1.state.free_pages = m.state.free_pages + 1 ∧
            m1.state.invalidatings = m.state.invalidatings) ∨
          (m1.state.free_pages = m.state.free_pages ∧
            m1.state.invalidatings = m.state.invalidatings + 1)) :=
  counters_are_related TYPE_FIFO 2 (fun _ => 0) (fun _ => 0) [0, 1, 0, 2, 0]
    (Or.inr rfl) (by decide)

end VirtMem
